import Mathlib

/-!
Verification of the `uncertain` library (src/uncertain.py): a formatter and
parser for measured quantities written in parenthetical-digits scientific
notation, e.g. `+5.1099895000(15) × 10^-1`.

The Python source works on IEEE floats; this development embeds the algorithm
over exact rationals (ℚ), the standard idealization of the "real numbers" the
specification speaks about.  Machine floats enter nowhere; every operation of
the source (`np.log10`/`np.floor` on positive values, `f'{x:.df}'` fixed-point
rendering, `float()` / `int()` parsing, `str.split`) is modelled by an
executable Lean function on ℚ, `List Char` and `String` that follows the
source line by line:

 * `Uncertain.make`       — `Uncertain.__init__` (stores `|uncertainty|`);
 * `expChars`             — `_exponent` (both call sites pass `sign='+'`);
 * `formatBody/formatFuel/Uncertain.format` — `Uncertain.__format__`
   (the source recursion normalizes the exponent to 0, so recursion depth is
   at most 1 and fuel 2 is always enough; running out of fuel is a formal
   error value that is proved unreachable where needed);
 * `Uncertain.toStr`      — `Uncertain.__str__` (= `format(self, '+u2')`);
 * `fromStringBody/fromStringFuel/Uncertain.fromString` — `Uncertain.from_string`;
 * `renderFixed`          — Python `f'{x:[+].df}'` (round half to even);
 * `renderFree`           — Python `f'{x:[+]}'`, i.e. `repr` of the value: for
   a decimal-finite rational this is its exact decimal expansion (which is
   what `repr` of a float denotes); for other rationals (unreachable from
   float inputs) a 27-digit fixed-point fallback keeps the function total;
 * `parseFloatChars` / `parseIntChars` — Python `float()` / `int()` on the
   dialect of numerals this program emits and consumes (optional surrounding
   blanks, optional sign, digits with at most one dot, optional `e`-exponent);
 * `extractPrec` / `extractU` — `re.search('\.(\d*)', spec)` and
   `re.search('u(\d*)', spec)` followed by `int(...)` (an empty digit run
   makes `int('')` raise, which is the `emptyPrecision`/`emptyUncertaintyDigits`
   error value);
 * `intLog10`             — `int(np.floor(np.log10(|x|)))` for `x ≠ 0`;
   `mean == 0` makes the source raise (`int(-inf)`), modelled by `.meanZero`,
   and a negative stored uncertainty would make `np.log10` produce `nan` and
   `int(nan)` raise, modelled by `.nanLog`.

All recursion is structural or fuelled so that every definition evaluates
inside the kernel (`decide`/`rfl`).
-/

attribute [local semireducible] Rat.add Rat.mul Rat.inv Rat.sub Rat.ofScientific

set_option maxHeartbeats 1000000

/-- Character for a decimal digit: `dChar 7 = '7'`. -/
def dChar (d : ℕ) : Char := Char.ofNat (48 + d)

/-- Numeric value of a decimal digit character: `dVal '7' = 7`. -/
def dVal (c : Char) : ℕ := c.toNat - 48

/-- Is `c` one of `'0'..'9'`? -/
def isDig (c : Char) : Bool := 48 ≤ c.toNat && c.toNat ≤ 57

/-- Little-endian base-10 digits of `n`, with explicit fuel (`natDigitsF n n`
is always enough fuel). -/
def natDigitsF : ℕ → ℕ → List ℕ
  | 0, _ => []
  | fuel + 1, n => if n = 0 then [] else n % 10 :: natDigitsF fuel (n / 10)

/-- Decimal digit characters of a natural number, most significant first;
`natChars 0 = "0".data`. -/
def natChars (n : ℕ) : List Char :=
  if n = 0 then ['0'] else ((natDigitsF n n).map dChar).reverse

/-- Fuelled `⌊log₁₀ n⌋` on naturals (`0` below `10`). -/
def natLog10F : ℕ → ℕ → ℕ
  | 0, _ => 0
  | fuel + 1, n => if n < 10 then 0 else natLog10F fuel (n / 10) + 1

/-- Floor of the base-10 logarithm of a natural number (junk value `0` at `0`). -/
def natLog10 (n : ℕ) : ℕ := natLog10F n n

/-- Fuelled `⌈log₁₀ n⌉` on naturals: least `k` with `n ≤ 10^k`. -/
def natCLog10F : ℕ → ℕ → ℕ
  | 0, _ => 0
  | fuel + 1, n => if n ≤ 1 then 0 else natCLog10F fuel ((n + 9) / 10) + 1

/-- Ceiling of the base-10 logarithm of a natural number. -/
def natCLog10 (n : ℕ) : ℕ := natCLog10F n n

/-- The model of `int(np.floor(np.log10(np.sign(x) * x)))` from the source:
`⌊log₁₀ |q|⌋` for `q ≠ 0` (junk value `0` at `0`). -/
def intLog10 (q : ℚ) : ℤ :=
  if 1 ≤ |q| then (natLog10 ⌊|q|⌋₊ : ℤ) else -(natCLog10 ⌈|q|⁻¹⌉₊ : ℤ)

/-- Round to the nearest integer, ties to even: the rounding used by Python's
fixed-point float formatting. -/
def roundHalfEven (q : ℚ) : ℤ :=
  let f := ⌊q⌋
  if q - f < 1 / 2 then f
  else if 1 / 2 < q - f then f + 1
  else if f % 2 = 0 then f else f + 1

/-- Truncation toward zero: Python `int()` applied to a number. -/
def truncInt (q : ℚ) : ℤ := if q < 0 then -⌊-q⌋ else ⌊q⌋

/-- Left-pad a digit string with `'0'` to width `d`. -/
def padZeros (d : ℕ) (l : List Char) : List Char :=
  List.replicate (d - l.length) '0' ++ l

/-- Model of Python `f'{q:[+].{d}f}'`: fixed-point rendering of `q` with `d`
digits after the decimal point, round half to even, sign forced when
`forced = true` (no decimal point at all when `d = 0`). -/
def renderFixed (q : ℚ) (d : ℕ) (forced : Bool) : List Char :=
  let n := roundHalfEven (q * (10 : ℚ) ^ d)
  let a := n.natAbs
  (if q < 0 then ['-'] else if forced then ['+'] else []) ++
    natChars (a / 10 ^ d) ++
    (if d = 0 then [] else '.' :: padZeros d (natChars (a % 10 ^ d)))

/-- Fuelled multiplicity of a prime `p` in `n`. -/
def padicF : ℕ → ℕ → ℕ → ℕ
  | 0, _, _ => 0
  | fuel + 1, p, n =>
    if 2 ≤ p ∧ 0 < n ∧ n % p = 0 then padicF fuel p (n / p) + 1 else 0

/-- Multiplicity of 2 in `n`. -/
def pad2 (n : ℕ) : ℕ := padicF n 2 n

/-- Multiplicity of 5 in `n`. -/
def pad5 (n : ℕ) : ℕ := padicF n 5 n

/-- Number of digits of the exact decimal expansion of `q` after the decimal
point, when it is finite. -/
def decDigits (q : ℚ) : ℕ := max (pad2 q.den) (pad5 q.den)

/-- Does `q` have a finite decimal expansion (denominator of the form
`2^a * 5^b`)?  Every IEEE float does, so this captures exactly the values the
Python source can hold. -/
def decFiniteB (q : ℚ) : Bool := q.den == 2 ^ pad2 q.den * 5 ^ pad5 q.den

/-- Model of Python `f'{q:[+]}'` (the `repr` of a float value): the exact
decimal expansion of a decimal-finite rational; a total 27-digit fixed-point
fallback otherwise (unreachable from float-valued inputs). -/
def renderFree (q : ℚ) (forced : Bool) : List Char :=
  if decFiniteB q then renderFixed q (decDigits q) forced
  else renderFixed q 27 forced

/-- Do all characters of the list satisfy `p`? -/
def allC (p : Char → Bool) : List Char → Bool
  | [] => true
  | x :: xs => p x && allC p xs

/-- The characters a plain decimal numeral can contain: digits, signs, dot. -/
def numC (c : Char) : Bool := isDig c || c == '+' || c == '-' || c == '.'

/-- The characters an exponent suffix can contain: numeral characters plus
blank, `×`, `^` and `e`. -/
def expC (c : Char) : Bool := numC c || c == ' ' || c == '×' || c == '^' || c == 'e'

/-- Boolean membership of a character in a list. -/
def hasChar (c : Char) : List Char → Bool
  | [] => false
  | x :: xs => if x = c then true else hasChar c xs

/-- Take the longest prefix satisfying `p`. -/
def takeWhileC (p : Char → Bool) : List Char → List Char
  | [] => []
  | x :: xs => if p x then x :: takeWhileC p xs else []

/-- Drop the longest prefix satisfying `p`. -/
def dropWhileC (p : Char → Bool) : List Char → List Char
  | [] => []
  | x :: xs => if p x then dropWhileC p xs else x :: xs

/-- Model of `re.search(c + '(\d*)', spec)`: the (possibly empty) maximal
digit run following the first occurrence of `c`, or `none` when `c` does not
occur. -/
def findTokDigits (c : Char) : List Char → Option (List Char)
  | [] => none
  | x :: xs => if x = c then some (takeWhileC isDig xs) else findTokDigits c xs

/-- Numeric value of a digit string (most significant first). -/
def digitsVal (l : List Char) : ℕ := l.foldl (fun a c => 10 * a + dVal c) 0

/-- The ways `Uncertain.__format__` can fail (each constructor corresponds to
an exception the Python source would raise on that path, plus the formal
`outOfFuel` proved unreachable for `mean ≠ 0`). -/
inductive FormatError
  /-- `mean == 0`: `int(np.floor(np.log10(0)))` raises `OverflowError`. -/
  | meanZero
  /-- the spec contains `.` followed by no digits: `int('')` raises. -/
  | emptyPrecision
  /-- the spec contains `u` followed by no digits: `int('')` raises. -/
  | emptyUncertaintyDigits
  /-- the explicit `raise ValueError` for simultaneous `.N` and `uM`. -/
  | precisionAndUncertainty
  /-- a negative digit count reaching `f'{x:.{d}f}'` (proved unreachable). -/
  | negativeDigits
  /-- a negative stored uncertainty: `int(np.log10(neg)) = int(nan)` raises. -/
  | nanLog
  /-- formal fuel exhaustion (proved unreachable for `mean ≠ 0`). -/
  | outOfFuel
deriving DecidableEq

/-- Model of `re.search('\.(\d*)', format_spec)` followed by
`int(match.group()[1:])`, defaulting to `0` when absent (source lines
177–181). -/
def extractPrec (l : List Char) : Except FormatError ℕ :=
  match findTokDigits '.' l with
  | none => .ok 0
  | some [] => .error .emptyPrecision
  | some ds => .ok (digitsVal ds)

/-- Model of `re.search('u(\d*)', format_spec)` followed by
`int(match.group()[1:])`, defaulting to `0` when absent (source lines
200–204). -/
def extractU (l : List Char) : Except FormatError ℕ :=
  match findTokDigits 'u' l with
  | none => .ok 0
  | some [] => .error .emptyUncertaintyDigits
  | some ds => .ok (digitsVal ds)

deriving instance DecidableEq for Except

/-- The data model: a mean and an uncertainty. -/
structure Uncertain where
  mean : ℚ
  uncertainty : ℚ
deriving DecidableEq

/-- The constructor `Uncertain.__init__`: stores the mean unchanged and the
absolute value of the uncertainty. -/
def Uncertain.make (mean uncertainty : ℚ) : Uncertain := ⟨mean, |uncertainty|⟩

/-- Signed decimal rendering of an integer with the `'+'` format flag, i.e.
Python `f'{z:+}'`. -/
def intSignedChars (z : ℤ) : List Char :=
  if z < 0 then '-' :: natChars z.natAbs else '+' :: natChars z.natAbs

/-- Unsigned-for-positives decimal rendering of an integer, i.e. Python
`f'{z}'` (used for the parenthetical indicator). -/
def intChars (z : ℤ) : List Char :=
  if z < 0 then '-' :: natChars z.natAbs else natChars z.natAbs

/-- Model of `_exponent(e, sign='+', E=...)` (source lines 25–31): empty for
`e = 0`, otherwise `'e'` or `' × 10^'` followed by the always-signed integer. -/
def expChars (e : ℤ) (E : Bool) : List Char :=
  if e = 0 then []
  else (if E then ['e'] else [' ', '×', ' ', '1', '0', '^']) ++ intSignedChars e

/-- One unfolding of `Uncertain.__format__` (source lines 135–217), with the
recursive call at line 171 abstracted as `rec`.  Branch order follows the
source exactly: zero-mean failure, zero-uncertainty early return, exponent
factoring recursion, `.N` extraction, uncertainty-dominant `±` return, `uM`
extraction, mutual-exclusion error, truncating explicit-precision indicator
or ceiling inferred-precision indicator. -/
def formatBody (rec : Uncertain → List Char → Except FormatError (List Char))
    (v : Uncertain) (spec : List Char) : Except FormatError (List Char) :=
  if v.mean = 0 then .error .meanZero else
  let exponent : ℤ := intLog10 v.mean
  let fsign : Bool := hasChar '+' spec || spec.isEmpty
  let E : Bool := hasChar 'e' spec
  if v.uncertainty = 0 then
    .ok (renderFree (v.mean / (10 : ℚ) ^ exponent) fsign ++ expChars exponent E)
  else if 1 ≤ |exponent| then
    match rec (Uncertain.make (v.mean / (10 : ℚ) ^ exponent)
        (v.uncertainty / (10 : ℚ) ^ exponent)) spec with
    | .ok stem => .ok (stem ++ expChars exponent E)
    | .error err => .error err
  else
    match extractPrec spec with
    | .error err => .error err
    | .ok fprec =>
      if |v.mean| ≤ |v.uncertainty| then
        if fprec ≠ 0 then
          .ok ('(' :: renderFixed v.mean fprec fsign ++ [' ', '±', ' '] ++
            renderFixed v.uncertainty fprec false ++ [')'])
        else
          .ok ('(' :: renderFree v.mean fsign ++ [' ', '±', ' '] ++
            renderFree v.uncertainty false ++ [')'])
      else if v.uncertainty < 0 then .error .nanLog else
      let prec : ℤ := intLog10 v.uncertainty
      match extractU spec with
      | .error err => .error err
      | .ok uprec =>
        if fprec ≠ 0 ∧ uprec ≠ 0 then .error .precisionAndUncertainty
        else if fprec ≠ 0 then
          .ok (renderFixed v.mean fprec fsign ++
            '(' :: intChars (truncInt (v.uncertainty / (10 : ℚ) ^ (-(fprec : ℤ)))) ++ [')'])
        else
          let digits : ℤ := -prec + (if uprec ≠ 0 then (uprec : ℤ) - 1 else 1)
          if digits < 0 then .error .negativeDigits
          else
            .ok (renderFixed v.mean digits.toNat fsign ++
              '(' :: intChars ⌈v.uncertainty / (10 : ℚ) ^ (-digits)⌉ ++ [')'])

/-- Fuelled fixpoint of `formatBody`. -/
def formatFuel : ℕ → Uncertain → List Char → Except FormatError (List Char)
  | 0, _, _ => .error .outOfFuel
  | fuel + 1, v, spec => formatBody (formatFuel fuel) v spec

/-- `Uncertain.__format__`: the source normalizes the exponent to zero before
recursing, so the recursion depth is at most one and fuel 2 always suffices. -/
def Uncertain.format (v : Uncertain) (spec : String) : Except FormatError String :=
  (formatFuel 2 v spec.data).map String.mk

/-- `Uncertain.__str__` (source lines 131–133): `format(self, '+u2')`. -/
def Uncertain.toStr (v : Uncertain) : Except FormatError String :=
  Uncertain.format v "+u2"

/-- Python `string.split(c)` for a one-character separator: all fields,
empties kept; the result always has one more entry than there are
occurrences of `c`. -/
def splitOnChar (c : Char) : List Char → List (List Char)
  | [] => [[]]
  | x :: xs =>
    match splitOnChar c xs with
    | h :: t => if x = c then [] :: h :: t else (x :: h) :: t
    | [] => [[]]

/-- Strip leading and trailing blanks (Python `float()`/`int()` tolerate
surrounding whitespace). -/
def stripSp (l : List Char) : List Char :=
  (dropWhileC (fun c => c == ' ') ((dropWhileC (fun c => c == ' ') l).reverse)).reverse

/-- Consume an optional leading sign; returns (is-negative, rest). -/
def splitSign : List Char → (Bool × List Char)
  | [] => (false, [])
  | x :: r =>
    if x = '+' then (false, r)
    else if x = '-' then (true, r)
    else (false, x :: r)

/-- Are all characters decimal digits? -/
def allDigs : List Char → Bool
  | [] => true
  | x :: xs => isDig x && allDigs xs

/-- Split at the first `'e'`/`'E'`, keeping what follows it (the exponent part
of a float literal), if any. -/
def splitAtExp : List Char → (List Char × Option (List Char))
  | [] => ([], none)
  | x :: xs =>
    if x = 'e' ∨ x = 'E' then ([], some xs)
    else
      let p := splitAtExp xs
      (x :: p.1, p.2)

/-- Unsigned decimal numeral with at most one dot: `"12"`, `"1.5"`, `".5"`,
`"1."` (both sides empty, a second dot, or a non-digit make it fail, as in
Python `float()`). -/
def parseUFrac (l : List Char) : Option ℚ :=
  match splitOnChar '.' l with
  | [a] => if a ≠ [] ∧ allDigs a then some (digitsVal a : ℚ) else none
  | [a, b] =>
    if (a ≠ [] ∨ b ≠ []) ∧ allDigs a ∧ allDigs b then
      some ((digitsVal a : ℚ) + (digitsVal b : ℚ) / (10 : ℚ) ^ b.length)
    else none
  | _ => none

/-- Python `int(string)`: optional blanks, optional sign, nonempty digit run. -/
def parseIntChars (l : List Char) : Option ℤ :=
  let s := stripSp l
  let p := splitSign s
  if p.2 ≠ [] ∧ allDigs p.2 then
    some (if p.1 then -(digitsVal p.2 : ℤ) else (digitsVal p.2 : ℤ))
  else none

/-- Python `float(string)` on the numeral dialect this program reads and
writes: optional blanks, optional sign, digits with at most one dot, optional
`e`/`E` integer exponent. -/
def parseFloatChars (l : List Char) : Option ℚ :=
  let s := stripSp l
  let p := splitSign s
  let me := splitAtExp p.2
  match parseUFrac me.1, me.2 with
  | some q, none => some (if p.1 then -q else q)
  | some q, some ex =>
    match parseIntChars ex with
    | some z => some ((if p.1 then -q else q) * (10 : ℚ) ^ z)
    | none => none
  | none, _ => none

/-- The ways `Uncertain.from_string` can fail (each constructor corresponds
to an exception the Python source would raise on that path). -/
inductive ParseError
  /-- a tuple-unpacking `split` produced the wrong number of parts, or a
  required index was missing. -/
  | badSplit
  /-- `float()`/`int()` raised on a malformed numeral. -/
  | badNumber
  /-- the parenthetical-digits dialect found no `.` in the mean
  (`frac[1]` raises `IndexError`). -/
  | noDecimalPoint
  /-- `string[0]` on the empty string raises `IndexError`. -/
  | emptyString
  /-- formal fuel exhaustion (the fuel `length + 1` never runs out). -/
  | outOfFuel
deriving DecidableEq

/-- One unfolding of `Uncertain.from_string` (source lines 219–240), the
recursive call abstracted as `rec`.  Dialect order follows the source:
capital-`E` scientific notation, `×`-notation, explicit `(mean ± unc)`,
parenthetical digits. -/
def fromStringBody (rec : List Char → Except ParseError Uncertain)
    (l : List Char) : Except ParseError Uncertain :=
  if hasChar 'E' l then
    match splitOnChar 'E' l with
    | [mant, ex] =>
      match parseIntChars ex with
      | none => .error .badNumber
      | some z =>
        match rec mant with
        | .error e => .error e
        | .ok u => .ok (Uncertain.make (u.mean * (10 : ℚ) ^ z)
            (u.uncertainty * (10 : ℚ) ^ z))
    | _ => .error .badSplit
  else if hasChar '×' l then
    match splitOnChar '×' l with
    | [mant, rest] =>
      match splitOnChar '^' rest with
      | _ :: ex :: _ =>
        match parseIntChars ex with
        | none => .error .badNumber
        | some z =>
          match rec mant with
          | .error e => .error e
          | .ok u => .ok (Uncertain.make (u.mean * (10 : ℚ) ^ z)
              (u.uncertainty * (10 : ℚ) ^ z))
      | _ => .error .badSplit
    | _ => .error .badSplit
  else if l = [] then .error .emptyString
  else if l.head? = some '(' ∧ l.getLast? = some ')' then
    match splitOnChar '±' ((l.drop 1).dropLast) with
    | [m, u] =>
      match parseFloatChars m, parseFloatChars u with
      | some qm, some qu => .ok (Uncertain.make qm qu)
      | _, _ => .error .badNumber
    | _ => .error .badSplit
  else
    match splitOnChar '(' l with
    | [m, rest] =>
      match splitOnChar '.' m with
      | _ :: frac :: _ =>
        match parseFloatChars m, parseFloatChars ((splitOnChar ')' rest).headD []) with
        | some qm, some qu =>
          .ok (Uncertain.make qm (qu * (10 : ℚ) ^ (-(frac.length : ℤ))))
        | _, _ => .error .badNumber
      | _ => .error .noDecimalPoint
    | _ => .error .badSplit

/-- Fuelled fixpoint of `fromStringBody`. -/
def fromStringFuel : ℕ → List Char → Except ParseError Uncertain
  | 0, _ => .error .outOfFuel
  | fuel + 1, l => fromStringBody (fromStringFuel fuel) l

/-- `Uncertain.from_string`: each recursive call strips at least the split
character, so `length + 1` units of fuel always suffice. -/
def Uncertain.fromString (s : String) : Except ParseError Uncertain :=
  fromStringFuel (s.length + 1) s.data

/-- The normalized value `Uncertain(mean / 10**e, uncertainty / 10**e)` that
line 168 of the source constructs before recursing. -/
def Uncertain.normalize (v : Uncertain) : Uncertain :=
  Uncertain.make (v.mean / (10 : ℚ) ^ intLog10 v.mean)
    (v.uncertainty / (10 : ℚ) ^ intLog10 v.mean)

/-- The numeric value rendered at the head of a formatted stem: skip an
optional opening parenthesis, keep the leading run of sign/digit/dot
characters, and read it as a float. -/
def leadingFloat (l : List Char) : Option ℚ :=
  parseFloatChars (takeWhileC numC (dropWhileC (fun c => c == '(') l))

/-- A format spec is syntactically valid when its `.`-token and `u`-token (if
present) carry digits and are not both present with nonzero counts — the
combination the data-model invariant of the spec rules out. -/
def validSpec (l : List Char) : Bool :=
  match extractPrec l, extractU l with
  | .ok n, .ok m => n == 0 || m == 0
  | _, _ => false

/-! ### Digit and numeral lemmas -/

theorem dVal_dChar {d : ℕ} (h : d < 10) : dVal (dChar d) = d := by
  interval_cases d <;> decide

theorem isDig_dChar {d : ℕ} (h : d < 10) : isDig (dChar d) = true := by
  interval_cases d <;> decide

theorem natDigitsF_ofDigits : ∀ fuel n, n ≤ fuel →
    Nat.ofDigits 10 (natDigitsF fuel n) = n := by
  intro fuel
  induction fuel with
  | zero => intro n h; interval_cases n; simp [natDigitsF, Nat.ofDigits]
  | succ f ih =>
    intro n h
    by_cases h0 : n = 0
    · simp [natDigitsF, h0, Nat.ofDigits]
    · have hd : n / 10 ≤ f := by
        have := Nat.div_lt_self (Nat.pos_of_ne_zero h0) (by norm_num : 1 < 10)
        omega
      simp only [natDigitsF, h0, if_false, Nat.ofDigits_cons, ih _ hd]
      omega

theorem natDigitsF_lt_ten : ∀ fuel n, ∀ d ∈ natDigitsF fuel n, d < 10 := by
  intro fuel
  induction fuel with
  | zero => intro n d hd; simp [natDigitsF] at hd
  | succ f ih =>
    intro n d hd
    by_cases h0 : n = 0
    · simp [natDigitsF, h0] at hd
    · simp only [natDigitsF, h0, if_false, List.mem_cons] at hd
      rcases hd with h | h
      · omega
      · exact ih _ _ h

theorem natDigitsF_len_le : ∀ fuel n k, n < 10 ^ k →
    (natDigitsF fuel n).length ≤ k := by
  intro fuel
  induction fuel with
  | zero => intro n k _; simp [natDigitsF]
  | succ f ih =>
    intro n k hk
    by_cases h0 : n = 0
    · simp [natDigitsF, h0]
    · have hk0 : k ≠ 0 := by
        rintro rfl; simp at hk; omega
      obtain ⟨k', rfl⟩ : ∃ k', k = k' + 1 := ⟨k - 1, by omega⟩
      simp only [natDigitsF, h0, if_false, List.length_cons]
      have : n / 10 < 10 ^ k' := by
        rw [Nat.div_lt_iff_lt_mul (by norm_num)]
        calc n < 10 ^ (k' + 1) := hk
        _ = 10 ^ k' * 10 := by ring
      exact Nat.succ_le_succ (ih _ _ this)

theorem natDigitsF_ne_nil : ∀ fuel n, n ≠ 0 → n ≤ fuel →
    natDigitsF fuel n ≠ [] := by
  intro fuel n h0 h
  cases fuel with
  | zero => omega
  | succ f => simp [natDigitsF, h0]


theorem digitsVal_foldl_map (ds : List ℕ) (hlt : ∀ d ∈ ds, d < 10) :
    ∀ a : ℕ, (ds.map dChar).foldl (fun a c => 10 * a + dVal c) a =
      Nat.ofDigits 10 ds.reverse + a * 10 ^ ds.length := by
  induction ds with
  | nil => intro a; simp [Nat.ofDigits]
  | cons d ds ih =>
    intro a
    have hd : d < 10 := hlt d (by simp)
    have hds : ∀ x ∈ ds, x < 10 := fun x hx => hlt x (by simp [hx])
    simp only [List.map_cons, List.foldl_cons, ih hds, dVal_dChar hd,
      List.reverse_cons, Nat.ofDigits_append, List.length_reverse,
      List.length_cons, Nat.ofDigits_singleton]
    ring

theorem digitsVal_natChars (n : ℕ) : digitsVal (natChars n) = n := by
  by_cases h0 : n = 0
  · subst h0; decide
  · have hds := natDigitsF_lt_ten n n
    have hrev : ∀ d ∈ (natDigitsF n n).reverse, d < 10 := by
      intro d hd; exact hds d (List.mem_reverse.mp hd)
    unfold digitsVal natChars
    simp only [h0, if_false, List.reverse_map]
    rw [digitsVal_foldl_map _ hrev 0]
    simp [List.reverse_reverse, natDigitsF_ofDigits n n le_rfl]

theorem allC_append {p : Char → Bool} {a b : List Char} :
    allC p (a ++ b) = (allC p a && allC p b) := by
  induction a with
  | nil => simp [allC]
  | cons x xs ih => simp [allC, ih, Bool.and_assoc]

theorem allC_mono {p q : Char → Bool} (h : ∀ c, p c = true → q c = true) :
    ∀ {l : List Char}, allC p l = true → allC q l = true := by
  intro l
  induction l with
  | nil => simp [allC]
  | cons x xs ih =>
    simp only [allC, Bool.and_eq_true]
    exact fun ⟨h1, h2⟩ => ⟨h x h1, ih h2⟩

theorem hasChar_false_of_allC {p : Char → Bool} {c : Char} (hc : p c = false) :
    ∀ {l : List Char}, allC p l = true → hasChar c l = false := by
  intro l
  induction l with
  | nil => simp [hasChar]
  | cons x xs ih =>
    simp only [allC, Bool.and_eq_true, hasChar]
    rintro ⟨h1, h2⟩
    have : x ≠ c := by rintro rfl; rw [h1] at hc; cases hc
    simp [this, ih h2]

theorem allDigs_natChars (n : ℕ) : allDigs (natChars n) = true := by
  have : ∀ ds : List ℕ, (∀ d ∈ ds, d < 10) → allDigs (ds.map dChar) = true := by
    intro ds
    induction ds with
    | nil => intro _; rfl
    | cons d rest ih =>
      intro h
      simp only [List.map_cons, allDigs, Bool.and_eq_true]
      exact ⟨isDig_dChar (h d (by simp)), ih fun x hx => h x (by simp [hx])⟩
  by_cases h0 : n = 0
  · subst h0; decide
  · unfold natChars
    simp only [h0, if_false, List.reverse_map]
    refine this _ ?_
    intro d hd
    exact natDigitsF_lt_ten n n d (List.mem_reverse.mp hd)

theorem allDigs_eq_allC (l : List Char) : allDigs l = allC isDig l := by
  induction l with
  | nil => rfl
  | cons x xs ih => simp [allDigs, allC, ih]

theorem natChars_ne_nil (n : ℕ) : natChars n ≠ [] := by
  by_cases h0 : n = 0
  · subst h0; decide
  · unfold natChars
    simp only [h0, if_false]
    intro h
    exact natDigitsF_ne_nil n n h0 le_rfl (by simpa using congrArg List.reverse h)

theorem natChars_len_le {n k : ℕ} (hk : 1 ≤ k) (h : n < 10 ^ k) :
    (natChars n).length ≤ k := by
  by_cases h0 : n = 0
  · subst h0; simpa [natChars] using hk
  · unfold natChars
    simp only [h0, if_false, List.length_reverse, List.length_map]
    exact natDigitsF_len_le n n k h

/-! ### Rounding lemmas -/

theorem roundHalfEven_le (q : ℚ) : (roundHalfEven q : ℚ) ≤ q + 1 / 2 := by
  have h1 : (⌊q⌋ : ℚ) ≤ q := Int.floor_le q
  simp only [roundHalfEven]
  split_ifs with h2 h3 h4
  · linarith
  · push_cast; linarith
  · linarith
  · push_cast; linarith

theorem le_roundHalfEven (q : ℚ) : q - 1 / 2 ≤ (roundHalfEven q : ℚ) := by
  have h1 : q < ⌊q⌋ + 1 := Int.lt_floor_add_one q
  push_cast at h1
  simp only [roundHalfEven]
  split_ifs with h2 h3 h4
  · linarith
  · push_cast; linarith
  · linarith
  · push_cast; linarith

theorem roundHalfEven_intCast (z : ℤ) : roundHalfEven (z : ℚ) = z := by
  simp only [roundHalfEven, Int.floor_intCast]
  norm_num

theorem roundHalfEven_nonneg {q : ℚ} (h : 0 ≤ q) : 0 ≤ roundHalfEven q := by
  have h1 := le_roundHalfEven q
  have h2 : (-1 : ℚ) < (roundHalfEven q : ℚ) := by linarith
  have h3 : (-1 : ℤ) < roundHalfEven q := by exact_mod_cast h2
  omega

theorem roundHalfEven_nonpos {q : ℚ} (h : q < 0) : roundHalfEven q ≤ 0 := by
  have h1 := roundHalfEven_le q
  have h2 : (roundHalfEven q : ℚ) < 1 := by linarith
  have h3 : roundHalfEven q < (1 : ℤ) := by exact_mod_cast h2
  omega

/-! ### Base-10 logarithm bracketing -/

theorem natLog10F_bracket : ∀ fuel n, 1 ≤ n → n ≤ fuel →
    10 ^ natLog10F fuel n ≤ n ∧ n < 10 ^ (natLog10F fuel n + 1) := by
  intro fuel
  induction fuel with
  | zero => intro n h1 h2; omega
  | succ f ih =>
    intro n h1 h2
    by_cases hlt : n < 10
    · simp only [natLog10F, hlt, if_true]
      constructor
      · simpa using h1
      · simpa using hlt
    · push_neg at hlt
      have hq1 : 1 ≤ n / 10 := Nat.one_le_div_iff (by norm_num) |>.mpr hlt
      have hqf : n / 10 ≤ f := by
        have : n / 10 < n := Nat.div_lt_self (by omega) (by norm_num)
        omega
      obtain ⟨hL, hU⟩ := ih (n / 10) hq1 hqf
      have hnot : ¬ n < 10 := by omega
      simp only [natLog10F, hnot, if_false]
      have hdm := Nat.div_add_mod n 10
      have hmod : n % 10 < 10 := Nat.mod_lt n (by norm_num)
      constructor
      · calc 10 ^ (natLog10F f (n / 10) + 1) = 10 * 10 ^ natLog10F f (n / 10) := by ring
        _ ≤ 10 * (n / 10) := by omega
        _ ≤ n := by omega
      · have : n < 10 * (n / 10) + 10 := by omega
        have h2' : 10 * (n / 10) + 10 ≤ 10 * 10 ^ (natLog10F f (n / 10) + 1) := by omega
        calc n < 10 * (n / 10) + 10 := this
        _ ≤ 10 * 10 ^ (natLog10F f (n / 10) + 1) := h2'
        _ = 10 ^ (natLog10F f (n / 10) + 1 + 1) := by ring

theorem natCLog10F_bracket : ∀ fuel n, n ≤ fuel →
    n ≤ 10 ^ natCLog10F fuel n ∧ (2 ≤ n → 10 ^ (natCLog10F fuel n - 1) < n) := by
  intro fuel
  induction fuel with
  | zero =>
    intro n h
    interval_cases n
    exact ⟨by norm_num [natCLog10F], by omega⟩
  | succ f ih =>
    intro n h
    by_cases hle : n ≤ 1
    · simp only [natCLog10F, hle, if_true]
      constructor
      · simpa using hle
      · omega
    · push_neg at hle
      have h2n : 2 ≤ n := hle
      have hm : (n + 9) / 10 ≤ f := by
        have h1 : (n + 9) / 10 ≤ n - 1 := by omega
        omega
      obtain ⟨ihL, ihU⟩ := ih ((n + 9) / 10) hm
      have hnle : ¬ n ≤ 1 := by omega
      simp only [natCLog10F, hnle, if_false]
      constructor
      · have h10m : n ≤ 10 * ((n + 9) / 10) := by omega
        calc n ≤ 10 * ((n + 9) / 10) := h10m
        _ ≤ 10 * 10 ^ natCLog10F f ((n + 9) / 10) := by omega
        _ = 10 ^ (natCLog10F f ((n + 9) / 10) + 1) := by ring
      · intro _
        by_cases hm2 : 2 ≤ (n + 9) / 10
        · have hU := ihU hm2
          have hub : 10 * ((n + 9) / 10) ≤ n + 9 := by omega
          have hc1 : 1 ≤ natCLog10F f ((n + 9) / 10) := by
            by_contra hc
            push_neg at hc
            interval_cases (natCLog10F f ((n + 9) / 10)) <;> omega
          have key : 10 ^ (natCLog10F f ((n + 9) / 10) - 1) ≤ (n + 9) / 10 - 1 := by omega
          have : 10 ^ (natCLog10F f ((n + 9) / 10) - 1 + 1) ≤ 10 * ((n + 9) / 10 - 1) := by
            calc 10 ^ (natCLog10F f ((n + 9) / 10) - 1 + 1)
                = 10 * 10 ^ (natCLog10F f ((n + 9) / 10) - 1) := by ring
            _ ≤ 10 * ((n + 9) / 10 - 1) := by omega
          have heq : natCLog10F f ((n + 9) / 10) - 1 + 1 = natCLog10F f ((n + 9) / 10) := by omega
          rw [heq] at this
          have hfin : 10 * ((n + 9) / 10 - 1) ≤ n - 1 := by omega
          calc 10 ^ (natCLog10F f ((n + 9) / 10) + 1 - 1)
              = 10 ^ natCLog10F f ((n + 9) / 10) := by rw [Nat.add_sub_cancel]
          _ ≤ 10 * ((n + 9) / 10 - 1) := this
          _ ≤ n - 1 := hfin
          _ < n := by omega
        · have hz : natCLog10F f ((n + 9) / 10) = 0 := by
            have hm1 : (n + 9) / 10 ≤ 1 := by omega
            cases f with
            | zero => rfl
            | succ f' => simp [natCLog10F, hm1]
          rw [hz]
          have hp : (10 : ℕ) ^ (0 + 1 - 1) = 1 := by norm_num
          omega

theorem intLog10_bracket {q : ℚ} (hq : q ≠ 0) :
    (10 : ℚ) ^ intLog10 q ≤ |q| ∧ |q| < (10 : ℚ) ^ (intLog10 q + 1) := by
  have habs : 0 < |q| := abs_pos.mpr hq
  by_cases h1 : 1 ≤ |q|
  · simp only [intLog10, h1, if_true]
    set n := ⌊|q|⌋₊ with hn
    have hn1 : 1 ≤ n := Nat.le_floor (by exact_mod_cast h1)
    obtain ⟨hL, hU⟩ := natLog10F_bracket n n hn1 le_rfl
    constructor
    · rw [zpow_natCast]
      calc ((10 : ℚ) ^ natLog10 n) = ((10 ^ natLog10 n : ℕ) : ℚ) := by push_cast; ring
      _ ≤ (n : ℚ) := by exact_mod_cast hL
      _ ≤ |q| := Nat.floor_le habs.le
    · have hq1 : |q| < n + 1 := Nat.lt_floor_add_one |q|
      have hn2 : (n : ℚ) + 1 ≤ ((10 : ℕ) ^ (natLog10 n + 1) : ℕ) := by exact_mod_cast hU
      calc |q| < (n : ℚ) + 1 := hq1
      _ ≤ ((10 : ℕ) ^ (natLog10 n + 1) : ℕ) := hn2
      _ = (10 : ℚ) ^ ((natLog10 n : ℤ) + 1) := by
          push_cast
          rw [← zpow_natCast (10 : ℚ) (natLog10 n + 1)]
          push_cast
          ring_nf
  · push_neg at h1
    simp only [intLog10, not_le.mpr h1, if_false]
    have hinv1 : 1 < |q|⁻¹ := (one_lt_inv₀ habs).mpr h1
    set n := ⌈|q|⁻¹⌉₊ with hn
    have hn2 : 2 ≤ n := by
      have h' : (1 : ℚ) < (n : ℚ) := lt_of_lt_of_le hinv1 (Nat.le_ceil _)
      have h'' : (1 : ℕ) < n := by exact_mod_cast h'
      omega
    obtain ⟨hL0, hU0⟩ := natCLog10F_bracket n n le_rfl
    have hL : n ≤ 10 ^ natCLog10 n := hL0
    have hU2 : 10 ^ (natCLog10 n - 1) < n := hU0 hn2
    set c := natCLog10 n with hc
    have hc1 : 1 ≤ c := by
      rw [hc]
      obtain ⟨m, hm'⟩ : ∃ m, n = m + 1 := ⟨n - 1, by omega⟩
      rw [hm']
      have hnot : ¬ (m + 1 ≤ 1) := by omega
      simp only [natCLog10, natCLog10F, hnot, if_false]
      omega
    constructor
    · have key : |q|⁻¹ ≤ (10 : ℚ) ^ (c : ℤ) := by
        calc |q|⁻¹ ≤ (n : ℚ) := Nat.le_ceil _
        _ ≤ ((10 ^ c : ℕ) : ℚ) := by exact_mod_cast hL
        _ = (10 : ℚ) ^ (c : ℤ) := by push_cast [zpow_natCast]; ring
      have h2 : 1 ≤ |q| * (10 : ℚ) ^ (c : ℤ) := by
        have := mul_le_mul_of_nonneg_left key habs.le
        rwa [mul_inv_cancel₀ habs.ne'] at this
      have hpow : (0 : ℚ) < (10 : ℚ) ^ (c : ℤ) := zpow_pos (by norm_num) _
      rw [zpow_neg]
      rw [inv_le_iff_one_le_mul₀ hpow]
      linarith [h2]
    · have key : (10 : ℚ) ^ ((c : ℤ) - 1) < |q|⁻¹ := by
        have hceil : (n : ℚ) < |q|⁻¹ + 1 := Nat.ceil_lt_add_one (by positivity)
        have hnm1 : ((10 ^ (c - 1) : ℕ) : ℚ) ≤ ((n : ℚ) - 1) := by
          have : 10 ^ (c - 1) ≤ n - 1 := by omega
          have hcast : ((10 ^ (c - 1) : ℕ) : ℚ) ≤ ((n - 1 : ℕ) : ℚ) := by exact_mod_cast this
          calc ((10 ^ (c - 1) : ℕ) : ℚ) ≤ ((n - 1 : ℕ) : ℚ) := hcast
          _ = (n : ℚ) - 1 := by
              have : (1 : ℕ) ≤ n := by omega
              push_cast [Nat.cast_sub this]
              ring
        have heq : ((10 ^ (c - 1) : ℕ) : ℚ) = (10 : ℚ) ^ ((c : ℤ) - 1) := by
          have : ((c : ℤ) - 1) = ((c - 1 : ℕ) : ℤ) := by omega
          rw [this, zpow_natCast]
          push_cast
          ring
        calc (10 : ℚ) ^ ((c : ℤ) - 1) = ((10 ^ (c - 1) : ℕ) : ℚ) := heq.symm
        _ ≤ (n : ℚ) - 1 := hnm1
        _ < |q|⁻¹ := by linarith
      have h2 : |q| * (10 : ℚ) ^ ((c : ℤ) - 1) < 1 := by
        have := mul_lt_mul_of_pos_left key habs
        rwa [mul_inv_cancel₀ habs.ne'] at this
      have hpow : (0 : ℚ) < (10 : ℚ) ^ ((c : ℤ) - 1) := zpow_pos (by norm_num) _
      have hgoal : |q| < ((10 : ℚ) ^ ((c : ℤ) - 1))⁻¹ := by
        rw [← one_div]
        exact (lt_div_iff hpow).mpr (by linarith)
      calc |q| < ((10 : ℚ) ^ ((c : ℤ) - 1))⁻¹ := hgoal
      _ = (10 : ℚ) ^ (-(c : ℤ) + 1) := by
          rw [← zpow_neg]
          congr 1
          ring

theorem intLog10_unique {q : ℚ} {e : ℤ} (hL : (10 : ℚ) ^ e ≤ |q|)
    (hU : |q| < (10 : ℚ) ^ (e + 1)) : intLog10 q = e := by
  have hq : q ≠ 0 := by
    intro h
    rw [h, abs_zero] at hL
    exact absurd hL (not_le.mpr (zpow_pos (by norm_num) e))
  obtain ⟨hL', hU'⟩ := intLog10_bracket hq
  by_contra hne
  rcases lt_or_gt_of_ne hne with hlt | hgt
  · have : (10 : ℚ) ^ (intLog10 q + 1) ≤ (10 : ℚ) ^ e :=
      zpow_le_zpow_right₀ (by norm_num) (by omega)
    linarith
  · have : (10 : ℚ) ^ (e + 1) ≤ (10 : ℚ) ^ intLog10 q :=
      zpow_le_zpow_right₀ (by norm_num) (by omega)
    linarith

theorem abs_div_zpow (q : ℚ) (e : ℤ) :
    |q / (10 : ℚ) ^ e| = |q| / (10 : ℚ) ^ e := by
  rw [abs_div, abs_of_pos (zpow_pos (show (0 : ℚ) < 10 by norm_num) e)]

theorem mantissa_bounds {q : ℚ} (hq : q ≠ 0) :
    1 ≤ |q / (10 : ℚ) ^ intLog10 q| ∧ |q / (10 : ℚ) ^ intLog10 q| < 10 := by
  obtain ⟨hL, hU⟩ := intLog10_bracket hq
  have hpow : (0 : ℚ) < (10 : ℚ) ^ intLog10 q := zpow_pos (by norm_num) _
  rw [abs_div_zpow]
  constructor
  · rw [le_div_iff hpow]
    linarith
  · rw [div_lt_iff hpow]
    calc |q| < (10 : ℚ) ^ (intLog10 q + 1) := hU
    _ = 10 * (10 : ℚ) ^ intLog10 q := by
        rw [zpow_add₀ (by norm_num : (10 : ℚ) ≠ 0)]
        ring

theorem intLog10_mantissa_zero {q : ℚ} (hq : q ≠ 0) :
    intLog10 (q / (10 : ℚ) ^ intLog10 q) = 0 := by
  obtain ⟨h1, h2⟩ := mantissa_bounds hq
  exact intLog10_unique (by simpa using h1) (by simpa using h2)

theorem intLog10_ge_one {q : ℚ} (hq : 10 ≤ |q|) : 1 ≤ intLog10 q := by
  have hq0 : q ≠ 0 := by
    intro h; rw [h, abs_zero] at hq; linarith
  obtain ⟨hL, hU⟩ := intLog10_bracket hq0
  by_contra hcon
  push_neg at hcon
  have : (10 : ℚ) ^ (intLog10 q + 1) ≤ (10 : ℚ) ^ (1 : ℤ) :=
    zpow_le_zpow_right₀ (by norm_num) (by omega)
  simp only [zpow_one] at this
  linarith

theorem intLog10_eq_zero_bounds {q : ℚ} (hq : q ≠ 0) (h : intLog10 q = 0) :
    1 ≤ |q| ∧ |q| < 10 := by
  obtain ⟨hL, hU⟩ := intLog10_bracket hq
  rw [h] at hL hU
  simp only [zpow_zero, zero_add, zpow_one] at hL hU
  exact ⟨hL, hU⟩

theorem mantissa_self {q : ℚ} (hq : q ≠ 0) (h : intLog10 q = 0) :
    q / (10 : ℚ) ^ intLog10 q = q := by
  rw [h]
  simp

/-! ### List-splitting lemmas -/

theorem hasChar_append (c : Char) (a b : List Char) :
    hasChar c (a ++ b) = (hasChar c a || hasChar c b) := by
  induction a with
  | nil => simp [hasChar]
  | cons x xs ih =>
    by_cases hx : x = c <;> simp [hasChar, hx, ih]

theorem hasChar_cons_self (c : Char) (l : List Char) :
    hasChar c (c :: l) = true := by
  simp [hasChar]

theorem splitOnChar_ne_nil (c : Char) (l : List Char) :
    splitOnChar c l ≠ [] := by
  induction l with
  | nil => simp [splitOnChar]
  | cons x xs ih =>
    simp only [splitOnChar]
    rcases h : splitOnChar c xs with _ | ⟨h1, t1⟩
    · exact absurd h ih
    · by_cases hx : x = c <;> simp [hx]

theorem splitOnChar_of_not_has {c : Char} {l : List Char}
    (h : hasChar c l = false) : splitOnChar c l = [l] := by
  induction l with
  | nil => rfl
  | cons x xs ih =>
    simp only [hasChar] at h
    by_cases hx : x = c
    · simp [hx] at h
    · simp only [hx, if_false] at h
      simp [splitOnChar, ih h, hx]

theorem splitOnChar_append {c : Char} {a b : List Char}
    (ha : hasChar c a = false) :
    splitOnChar c (a ++ c :: b) = a :: splitOnChar c b := by
  induction a with
  | nil =>
    simp only [List.nil_append, splitOnChar]
    rcases h : splitOnChar c b with _ | ⟨h1, t1⟩
    · exact absurd h (splitOnChar_ne_nil c b)
    · simp
  | cons x xs ih =>
    simp only [hasChar] at ha
    by_cases hx : x = c
    · simp [hx] at ha
    · simp only [hx, if_false] at ha
      show splitOnChar c (x :: (xs ++ c :: b)) = (x :: xs) :: splitOnChar c b
      simp only [splitOnChar]
      rw [ih ha]
      simp [hx]

theorem takeWhileC_all {p : Char → Bool} {l : List Char}
    (h : allC p l = true) : takeWhileC p l = l := by
  induction l with
  | nil => rfl
  | cons x xs ih =>
    simp only [allC, Bool.and_eq_true] at h
    simp [takeWhileC, h.1, ih h.2]

theorem takeWhileC_append_stop {p : Char → Bool} {a : List Char} {x : Char}
    (b : List Char) (ha : allC p a = true) (hx : p x = false) :
    takeWhileC p (a ++ x :: b) = a := by
  induction a with
  | nil => simp [takeWhileC, hx]
  | cons y ys ih =>
    simp only [allC, Bool.and_eq_true] at ha
    simp [takeWhileC, ha.1, ih ha.2]

theorem dropWhileC_all {p : Char → Bool} {l : List Char}
    (h : allC p l = true) : dropWhileC p l = [] := by
  induction l with
  | nil => rfl
  | cons x xs ih =>
    simp only [allC, Bool.and_eq_true] at h
    simp [dropWhileC, h.1, ih h.2]

theorem dropWhileC_head_stop (p : Char → Bool) (x : Char)
    (l : List Char) (hx : p x = false) :
    dropWhileC p (x :: l) = x :: l := by
  simp [dropWhileC, hx]

theorem dropWhileC_of_not_has {c : Char} {l : List Char}
    (h : hasChar c l = false) :
    dropWhileC (fun d => d == c) l = l := by
  induction l with
  | nil => rfl
  | cons x xs ih =>
    simp only [hasChar] at h
    by_cases hx : x = c
    · simp [hx] at h
    · simp only [hx, if_false] at h
      simp [dropWhileC, hx, ih h]

theorem hasChar_reverse (c : Char) (l : List Char) :
    hasChar c l.reverse = hasChar c l := by
  induction l with
  | nil => rfl
  | cons x xs ih =>
    simp only [List.reverse_cons, hasChar_append, ih, hasChar]
    by_cases hx : x = c <;> simp [hasChar, hx, Bool.or_comm]

theorem stripSp_of_clean {l : List Char} (h : hasChar ' ' l = false) :
    stripSp l = l := by
  unfold stripSp
  rw [dropWhileC_of_not_has h, dropWhileC_of_not_has (by rw [hasChar_reverse]; exact h),
    List.reverse_reverse]

theorem dropWhileC_sp_cons (m : List Char) :
    dropWhileC (fun d => d == ' ') (' ' :: m) = dropWhileC (fun d => d == ' ') m := by
  simp [dropWhileC]

theorem stripSp_leading (l : List Char) : stripSp (' ' :: l) = stripSp l := by
  unfold stripSp
  rw [dropWhileC_sp_cons]

theorem stripSp_trailing {l : List Char} (h : hasChar ' ' l = false) :
    stripSp (l ++ [' ']) = l := by
  cases l with
  | nil => rfl
  | cons x rest =>
    have hx : ¬ x = ' ' := by
      intro hx
      rw [hx] at h
      simp [hasChar] at h
    have hxb : ((fun d => d == ' ') x) = false := by simp [hx]
    unfold stripSp
    rw [List.cons_append,
      dropWhileC_head_stop (fun c => c == ' ') x (rest ++ [' ']) hxb]
    rw [show x :: (rest ++ [' ']) = (x :: rest) ++ [' '] by simp]
    rw [List.reverse_append]
    simp only [List.reverse_cons, List.reverse_nil, List.nil_append, List.singleton_append]
    rw [dropWhileC_sp_cons]
    have hrest : hasChar ' ' rest = false := by
      simpa [hasChar, hx] using h
    have hclean : hasChar ' ' (rest.reverse ++ [x]) = false := by
      rw [hasChar_append, hasChar_reverse, hrest]
      simp [hasChar, hx]
    rw [dropWhileC_of_not_has hclean]
    simp

/-! ### Character-class facts about the renderers -/

theorem allC_natChars (n : ℕ) : allC isDig (natChars n) = true := by
  rw [← allDigs_eq_allC]
  exact allDigs_natChars n

theorem allC_replicate {p : Char → Bool} {c : Char} (h : p c = true) (k : ℕ) :
    allC p (List.replicate k c) = true := by
  induction k with
  | zero => rfl
  | succ m ih => simp [List.replicate, allC, h, ih]

theorem isDig_imp_numC : ∀ c, isDig c = true → numC c = true := by
  intro c h
  simp [numC, h]

theorem allC_padZeros {p : Char → Bool} (h0 : p '0' = true) (d : ℕ)
    {l : List Char} (h : allC p l = true) : allC p (padZeros d l) = true := by
  unfold padZeros
  rw [allC_append, allC_replicate h0, h]
  rfl

theorem renderFixed_allNum (q : ℚ) (d : ℕ) (f : Bool) :
    allC numC (renderFixed q d f) = true := by
  unfold renderFixed
  rw [allC_append, allC_append]
  have h1 : allC numC (if q < 0 then ['-'] else if f then ['+'] else []) = true := by
    split_ifs <;> decide
  have h2 : allC numC (natChars ((roundHalfEven (q * (10 : ℚ) ^ d)).natAbs / 10 ^ d)) = true :=
    allC_mono isDig_imp_numC (allC_natChars _)
  have h3 : allC numC (if d = 0 then [] else
      '.' :: padZeros d (natChars ((roundHalfEven (q * (10 : ℚ) ^ d)).natAbs % 10 ^ d))) = true := by
    split_ifs
    · rfl
    · show (numC '.' && _) = true
      rw [Bool.and_eq_true]
      refine ⟨by decide, ?_⟩
      exact allC_padZeros (by decide) d (allC_mono isDig_imp_numC (allC_natChars _))
  rw [h1, h2, h3]
  rfl

theorem renderFree_allNum (q : ℚ) (f : Bool) :
    allC numC (renderFree q f) = true := by
  unfold renderFree
  split_ifs <;> exact renderFixed_allNum _ _ _

theorem numC_imp_expC : ∀ c, numC c = true → expC c = true := by
  intro c h
  simp [expC, h]

theorem intSignedChars_allExp (z : ℤ) :
    allC expC (intSignedChars z) = true := by
  unfold intSignedChars
  have h : allC expC (natChars z.natAbs) = true :=
    allC_mono (fun c hc => numC_imp_expC c (isDig_imp_numC c hc)) (allC_natChars _)
  split_ifs <;> simp [allC, h] <;> decide

theorem expChars_allExp (e : ℤ) (E : Bool) :
    allC expC (expChars e E) = true := by
  unfold expChars
  split_ifs with h1
  · rfl
  all_goals
    rw [allC_append, intSignedChars_allExp]
    decide

/-! ### Value of a rendered numeral -/

theorem dVal_zero : dVal '0' = 0 := by decide

theorem foldl_zeros (k : ℕ) :
    List.foldl (fun a c => 10 * a + dVal c) 0 (List.replicate k '0') = 0 := by
  induction k with
  | zero => rfl
  | succ m ih => simpa [List.replicate, dVal_zero] using ih

theorem digitsVal_padZeros (d : ℕ) (l : List Char) :
    digitsVal (padZeros d l) = digitsVal l := by
  unfold digitsVal padZeros
  rw [List.foldl_append, foldl_zeros]

theorem padZeros_length {d : ℕ} {l : List Char} (h : l.length ≤ d) :
    (padZeros d l).length = d := by
  unfold padZeros
  rw [List.length_append, List.length_replicate]
  omega

theorem natDivModVal (a d : ℕ) :
    ((a / 10 ^ d : ℕ) : ℚ) + ((a % 10 ^ d : ℕ) : ℚ) / (10 : ℚ) ^ d =
      (a : ℚ) / (10 : ℚ) ^ d := by
  have hpow : ((10 : ℚ) ^ d) ≠ 0 := by positivity
  have h : 10 ^ d * (a / 10 ^ d) + a % 10 ^ d = a := Nat.div_add_mod a (10 ^ d)
  have hq : ((a / 10 ^ d : ℕ) : ℚ) * (10 : ℚ) ^ d + ((a % 10 ^ d : ℕ) : ℚ) = (a : ℚ) := by
    calc ((a / 10 ^ d : ℕ) : ℚ) * (10 : ℚ) ^ d + ((a % 10 ^ d : ℕ) : ℚ)
        = ((10 ^ d * (a / 10 ^ d) + a % 10 ^ d : ℕ) : ℚ) := by push_cast; ring
    _ = (a : ℚ) := by rw [h]
  field_simp
  linarith [hq]

theorem allDigs_padZeros (d : ℕ) {l : List Char} (h : allDigs l = true) :
    allDigs (padZeros d l) = true := by
  rw [allDigs_eq_allC] at h ⊢
  exact allC_padZeros (by decide) d h

theorem allC_isDig_padZeros (d : ℕ) (m : ℕ) :
    allC isDig (padZeros d (natChars m)) = true := by
  rw [← allDigs_eq_allC]
  exact allDigs_padZeros d (allDigs_natChars m)

theorem parseUFrac_render (a d : ℕ) :
    parseUFrac (natChars (a / 10 ^ d) ++
      (if d = 0 then [] else '.' :: padZeros d (natChars (a % 10 ^ d)))) =
      some ((a : ℚ) / (10 : ℚ) ^ d) := by
  by_cases hd : d = 0
  · subst hd
    simp only [if_true, List.append_nil, pow_zero, Nat.div_one]
    unfold parseUFrac
    rw [splitOnChar_of_not_has (hasChar_false_of_allC (by decide) (allC_natChars a))]
    simp only []
    rw [if_pos ⟨natChars_ne_nil a, allDigs_natChars a⟩, digitsVal_natChars]
    norm_num
  · have hfp : a % 10 ^ d < 10 ^ d := Nat.mod_lt a (by positivity)
    have hlen : (natChars (a % 10 ^ d)).length ≤ d := natChars_len_le (by omega) hfp
    simp only [hd, if_false]
    unfold parseUFrac
    rw [splitOnChar_append (hasChar_false_of_allC (by decide) (allC_natChars _)),
      splitOnChar_of_not_has (hasChar_false_of_allC (by decide) (allC_isDig_padZeros d _))]
    simp only []
    rw [if_pos ?side]
    case side =>
      refine ⟨Or.inl (natChars_ne_nil _), ?_, ?_⟩
      · exact allDigs_natChars _
      · rw [allDigs_eq_allC]
        exact allC_isDig_padZeros d _
    rw [digitsVal_natChars, digitsVal_padZeros, digitsVal_natChars,
      padZeros_length hlen, natDivModVal]

theorem splitAtExp_of_no_e {l : List Char} (he : hasChar 'e' l = false)
    (hE : hasChar 'E' l = false) : splitAtExp l = (l, none) := by
  induction l with
  | nil => rfl
  | cons x xs ih =>
    simp only [hasChar] at he hE
    by_cases hx : x = 'e'
    · simp [hx] at he
    · by_cases hX : x = 'E'
      · simp [hX] at hE
      · simp only [hx, if_false] at he
        simp only [hX, if_false] at hE
        simp only [splitAtExp, hx, hX, or_self, if_false, ih he hE]

theorem natChars_head_dig (m : ℕ) :
    ∃ c cs, natChars m = c :: cs ∧ isDig c = true := by
  rcases hnc : natChars m with _ | ⟨c, cs⟩
  · exact absurd hnc (natChars_ne_nil m)
  · have h : allC isDig (natChars m) = true := allC_natChars m
    rw [hnc] at h
    simp only [allC, Bool.and_eq_true] at h
    exact ⟨c, cs, rfl, h.1⟩

theorem splitSign_of_head_dig {c : Char} (cs : List Char) (h : isDig c = true) :
    splitSign (c :: cs) = (false, c :: cs) := by
  have h1 : ¬ c = '+' := by
    intro h'
    subst h'
    exact absurd h (by decide)
  have h2 : ¬ c = '-' := by
    intro h'
    subst h'
    exact absurd h (by decide)
  simp [splitSign, h1, h2]

theorem numC_no_e {l : List Char} (h : allC numC l = true) :
    hasChar 'e' l = false ∧ hasChar 'E' l = false :=
  ⟨hasChar_false_of_allC (by decide) h, hasChar_false_of_allC (by decide) h⟩

theorem parseFloatChars_core {l body : List Char} {neg : Bool} {v : ℚ}
    (hstrip : stripSp l = l)
    (hsign : splitSign l = (neg, body))
    (hexp : splitAtExp body = (body, none))
    (hUF : parseUFrac body = some v) :
    parseFloatChars l = some (if neg then -v else v) := by
  unfold parseFloatChars
  dsimp only
  rw [hstrip, hsign]
  dsimp only
  rw [hexp]
  dsimp only
  rw [hUF]

theorem parseFloat_renderFixed (q : ℚ) (d : ℕ) (forced : Bool) :
    parseFloatChars (renderFixed q d forced) =
      some ((roundHalfEven (q * (10 : ℚ) ^ d) : ℚ) / (10 : ℚ) ^ d) := by
  have hall : allC numC (renderFixed q d forced) = true := renderFixed_allNum q d forced
  have hnosp : hasChar ' ' (renderFixed q d forced) = false :=
    hasChar_false_of_allC (by decide) hall
  have hstrip : stripSp (renderFixed q d forced) = renderFixed q d forced :=
    stripSp_of_clean hnosp
  have hbodyAll : allC numC (natChars ((roundHalfEven (q * (10 : ℚ) ^ d)).natAbs / 10 ^ d) ++
      (if d = 0 then [] else
        '.' :: padZeros d (natChars ((roundHalfEven (q * (10 : ℚ) ^ d)).natAbs % 10 ^ d)))) = true := by
    rw [allC_append, Bool.and_eq_true]
    constructor
    · exact allC_mono isDig_imp_numC (allC_natChars _)
    · split_ifs
      · rfl
      · show (numC '.' && _) = true
        rw [Bool.and_eq_true]
        exact ⟨by decide, allC_padZeros (by decide) d (allC_mono isDig_imp_numC (allC_natChars _))⟩
  obtain ⟨hbe, hbE⟩ := numC_no_e hbodyAll
  have hexp := splitAtExp_of_no_e hbe hbE
  have hUF := parseUFrac_render (roundHalfEven (q * (10 : ℚ) ^ d)).natAbs d
  by_cases hq : q < 0
  · have hn0 : roundHalfEven (q * (10 : ℚ) ^ d) ≤ 0 :=
      roundHalfEven_nonpos (mul_neg_of_neg_of_pos hq (by positivity))
    have hrf : renderFixed q d forced =
        '-' :: (natChars ((roundHalfEven (q * (10 : ℚ) ^ d)).natAbs / 10 ^ d) ++
          (if d = 0 then [] else
            '.' :: padZeros d (natChars ((roundHalfEven (q * (10 : ℚ) ^ d)).natAbs % 10 ^ d)))) := by
      unfold renderFixed
      rw [if_pos hq]
      rfl
    have hsign : splitSign (renderFixed q d forced) =
        (true, natChars ((roundHalfEven (q * (10 : ℚ) ^ d)).natAbs / 10 ^ d) ++
          (if d = 0 then [] else
            '.' :: padZeros d (natChars ((roundHalfEven (q * (10 : ℚ) ^ d)).natAbs % 10 ^ d)))) := by
      rw [hrf]
      simp [splitSign]
    rw [parseFloatChars_core hstrip hsign hexp hUF]
    rw [if_pos rfl]
    have hcast : ((roundHalfEven (q * (10 : ℚ) ^ d)).natAbs : ℚ) =
        -(roundHalfEven (q * (10 : ℚ) ^ d) : ℚ) := by
      rw [Int.cast_natAbs, abs_of_nonpos (by exact_mod_cast hn0)]
      push_cast
      ring
    rw [hcast, neg_div, neg_neg]
  · have hn0 : 0 ≤ roundHalfEven (q * (10 : ℚ) ^ d) :=
      roundHalfEven_nonneg (mul_nonneg (not_lt.mp hq) (by positivity))
    have hcast : ((roundHalfEven (q * (10 : ℚ) ^ d)).natAbs : ℚ) =
        ((roundHalfEven (q * (10 : ℚ) ^ d) : ℤ) : ℚ) := by
      rw [Int.cast_natAbs, abs_of_nonneg (by exact_mod_cast hn0)]
    cases forced with
    | true =>
      have hrf : renderFixed q d true =
          '+' :: (natChars ((roundHalfEven (q * (10 : ℚ) ^ d)).natAbs / 10 ^ d) ++
            (if d = 0 then [] else
              '.' :: padZeros d (natChars ((roundHalfEven (q * (10 : ℚ) ^ d)).natAbs % 10 ^ d)))) := by
        unfold renderFixed
        rw [if_neg hq]
        rfl
      have hsign : splitSign (renderFixed q d true) =
          (false, natChars ((roundHalfEven (q * (10 : ℚ) ^ d)).natAbs / 10 ^ d) ++
            (if d = 0 then [] else
              '.' :: padZeros d (natChars ((roundHalfEven (q * (10 : ℚ) ^ d)).natAbs % 10 ^ d)))) := by
        rw [hrf]
        simp [splitSign]
      rw [parseFloatChars_core hstrip hsign hexp hUF]
      rw [if_neg (by simp), hcast]
    | false =>
      obtain ⟨c, cs, hcc, hdig⟩ := natChars_head_dig
        ((roundHalfEven (q * (10 : ℚ) ^ d)).natAbs / 10 ^ d)
      have hrf : renderFixed q d false =
          natChars ((roundHalfEven (q * (10 : ℚ) ^ d)).natAbs / 10 ^ d) ++
            (if d = 0 then [] else
              '.' :: padZeros d (natChars ((roundHalfEven (q * (10 : ℚ) ^ d)).natAbs % 10 ^ d))) := by
        unfold renderFixed
        rw [if_neg hq]
        rfl
      have hsign : splitSign (renderFixed q d false) =
          (false, natChars ((roundHalfEven (q * (10 : ℚ) ^ d)).natAbs / 10 ^ d) ++
            (if d = 0 then [] else
              '.' :: padZeros d (natChars ((roundHalfEven (q * (10 : ℚ) ^ d)).natAbs % 10 ^ d)))) := by
        rw [hrf, hcc, List.cons_append, splitSign_of_head_dig _ hdig]
      rw [parseFloatChars_core hstrip hsign hexp hUF]
      rw [if_neg (by simp), hcast]

theorem decFinite_den_dvd {q : ℚ} (h : decFiniteB q = true) :
    q.den ∣ 10 ^ decDigits q := by
  unfold decFiniteB at h
  rw [beq_iff_eq] at h
  unfold decDigits
  set a := pad2 q.den with ha
  set b := pad5 q.den with hb
  rw [h, show (10 : ℕ) = 2 * 5 from rfl, mul_pow]
  exact mul_dvd_mul (pow_dvd_pow 2 (le_max_left a b)) (pow_dvd_pow 5 (le_max_right a b))

theorem exists_int_mul_pow {q : ℚ} (h : decFiniteB q = true) :
    ∃ z : ℤ, q * (10 : ℚ) ^ decDigits q = (z : ℚ) := by
  obtain ⟨m, hm⟩ := decFinite_den_dvd h
  refine ⟨q.num * m, ?_⟩
  have hden : (q.den : ℚ) ≠ 0 := by
    exact_mod_cast q.den_nz
  have hpow : ((10 : ℚ) ^ decDigits q) = ((q.den : ℚ) * (m : ℚ)) := by
    calc ((10 : ℚ) ^ decDigits q) = ((10 ^ decDigits q : ℕ) : ℚ) := by push_cast; ring
    _ = ((q.den * m : ℕ) : ℚ) := by rw [← hm]
    _ = (q.den : ℚ) * (m : ℚ) := by push_cast; ring
  have hqden : q * (q.den : ℚ) = (q.num : ℚ) := by
    nth_rewrite 1 [← Rat.num_div_den q]
    exact div_mul_cancel₀ _ hden
  rw [hpow, show q * ((q.den : ℚ) * (m : ℚ)) = q * (q.den : ℚ) * (m : ℚ) from by ring,
    hqden]
  push_cast
  ring

theorem parseFloat_renderFree {q : ℚ} (h : decFiniteB q = true) (forced : Bool) :
    parseFloatChars (renderFree q forced) = some q := by
  unfold renderFree
  rw [if_pos h, parseFloat_renderFixed]
  obtain ⟨z, hz⟩ := exists_int_mul_pow h
  rw [hz, roundHalfEven_intCast, ← hz]
  congr 1
  exact mul_div_cancel_right₀ q (by positivity)

theorem parseIntChars_core {l r : List Char} {neg : Bool}
    (hstrip : stripSp l = l) (hsign : splitSign l = (neg, r))
    (hne : r ≠ []) (hdig : allDigs r = true) :
    parseIntChars l = some (if neg then -(digitsVal r : ℤ) else (digitsVal r : ℤ)) := by
  unfold parseIntChars
  dsimp only
  rw [hstrip, hsign]
  dsimp only
  rw [if_pos ⟨hne, hdig⟩]

theorem intSignedChars_allNum (z : ℤ) : allC numC (intSignedChars z) = true := by
  unfold intSignedChars
  have h := allC_mono isDig_imp_numC (allC_natChars z.natAbs)
  split_ifs <;> simp [allC, h] <;> decide

theorem parseInt_intSignedChars (z : ℤ) :
    parseIntChars (intSignedChars z) = some z := by
  have hnosp : hasChar ' ' (intSignedChars z) = false :=
    hasChar_false_of_allC (by decide) (intSignedChars_allNum z)
  have hstrip := stripSp_of_clean hnosp
  by_cases hz : z < 0
  · have hrf : intSignedChars z = '-' :: natChars z.natAbs := by
      unfold intSignedChars
      rw [if_pos hz]
    have hsign : splitSign (intSignedChars z) = (true, natChars z.natAbs) := by
      rw [hrf]
      simp [splitSign]
    rw [parseIntChars_core hstrip hsign (natChars_ne_nil _) (allDigs_natChars _)]
    rw [if_pos rfl, digitsVal_natChars]
    have h1 : (z.natAbs : ℤ) = -z := by omega
    rw [h1, neg_neg]
  · have hrf : intSignedChars z = '+' :: natChars z.natAbs := by
      unfold intSignedChars
      rw [if_neg hz]
    have hsign : splitSign (intSignedChars z) = (false, natChars z.natAbs) := by
      rw [hrf]
      simp [splitSign]
    rw [parseIntChars_core hstrip hsign (natChars_ne_nil _) (allDigs_natChars _)]
    rw [if_neg (by simp), digitsVal_natChars]
    have h1 : (z.natAbs : ℤ) = z := by omega
    rw [h1]

theorem parseFloat_trailing_sp {l : List Char} (h : hasChar ' ' l = false) :
    parseFloatChars (l ++ [' ']) = parseFloatChars l := by
  unfold parseFloatChars
  dsimp only
  rw [stripSp_trailing h, stripSp_of_clean h]

theorem parseFloat_leading_sp (l : List Char) :
    parseFloatChars (' ' :: l) = parseFloatChars l := by
  unfold parseFloatChars
  dsimp only
  rw [stripSp_leading]

/-! ### Structure lemmas for the formatter -/

theorem formatFuel_succ (n : ℕ) (v : Uncertain) (spec : List Char) :
    formatFuel (n + 1) v spec = formatBody (formatFuel n) v spec := rfl

theorem formatBody_meanZero (rec : Uncertain → List Char → Except FormatError (List Char))
    (v : Uncertain) (spec : List Char) (hm : v.mean = 0) :
    formatBody rec v spec = .error .meanZero := by
  unfold formatBody
  rw [if_pos hm]

theorem formatBody_zeroUnc (rec : Uncertain → List Char → Except FormatError (List Char))
    {v : Uncertain} (spec : List Char) (hm : v.mean ≠ 0) (hu : v.uncertainty = 0) :
    formatBody rec v spec = .ok (renderFree (v.mean / (10 : ℚ) ^ intLog10 v.mean)
      (hasChar '+' spec || spec.isEmpty) ++ expChars (intLog10 v.mean) (hasChar 'e' spec)) := by
  unfold formatBody
  rw [if_neg hm]
  dsimp only
  rw [if_pos hu]

theorem formatBody_rec (rec : Uncertain → List Char → Except FormatError (List Char))
    {v : Uncertain} (spec : List Char) (hm : v.mean ≠ 0) (hu : v.uncertainty ≠ 0)
    (he : 1 ≤ |intLog10 v.mean|) :
    formatBody rec v spec = (match rec (Uncertain.normalize v) spec with
      | .ok stem => .ok (stem ++ expChars (intLog10 v.mean) (hasChar 'e' spec))
      | .error err => .error err) := by
  unfold formatBody Uncertain.normalize
  rw [if_neg hm]
  dsimp only
  rw [if_neg hu, if_pos he]

theorem formatBody_precError (rec : Uncertain → List Char → Except FormatError (List Char))
    {v : Uncertain} {spec : List Char} {err : FormatError} (hm : v.mean ≠ 0)
    (hu : v.uncertainty ≠ 0) (he : ¬ 1 ≤ |intLog10 v.mean|)
    (hp : extractPrec spec = .error err) :
    formatBody rec v spec = .error err := by
  unfold formatBody
  rw [if_neg hm]
  dsimp only
  rw [if_neg hu, if_neg he, hp]

theorem formatBody_dom_free (rec : Uncertain → List Char → Except FormatError (List Char))
    {v : Uncertain} {spec : List Char} (hm : v.mean ≠ 0) (hu : v.uncertainty ≠ 0)
    (he : ¬ 1 ≤ |intLog10 v.mean|) (hp : extractPrec spec = .ok 0)
    (hdom : |v.mean| ≤ |v.uncertainty|) :
    formatBody rec v spec = .ok ('(' ::
      renderFree v.mean (hasChar '+' spec || spec.isEmpty) ++ [' ', '±', ' '] ++
      renderFree v.uncertainty false ++ [')']) := by
  unfold formatBody
  rw [if_neg hm]
  dsimp only
  rw [if_neg hu, if_neg he, hp]
  dsimp only
  rw [if_pos hdom, if_neg (by simp : ¬ (0 : ℕ) ≠ 0)]

theorem formatBody_dom_fixed (rec : Uncertain → List Char → Except FormatError (List Char))
    {v : Uncertain} {spec : List Char} {N : ℕ} (hm : v.mean ≠ 0) (hu : v.uncertainty ≠ 0)
    (he : ¬ 1 ≤ |intLog10 v.mean|) (hp : extractPrec spec = .ok N) (hN : N ≠ 0)
    (hdom : |v.mean| ≤ |v.uncertainty|) :
    formatBody rec v spec = .ok ('(' ::
      renderFixed v.mean N (hasChar '+' spec || spec.isEmpty) ++ [' ', '±', ' '] ++
      renderFixed v.uncertainty N false ++ [')']) := by
  unfold formatBody
  rw [if_neg hm]
  dsimp only
  rw [if_neg hu, if_neg he, hp]
  dsimp only
  rw [if_pos hdom, if_pos hN]

theorem formatBody_digits_ceil (rec : Uncertain → List Char → Except FormatError (List Char))
    {v : Uncertain} {spec : List Char} {M : ℕ} (hm : v.mean ≠ 0) (hu : v.uncertainty ≠ 0)
    (he : ¬ 1 ≤ |intLog10 v.mean|) (hp : extractPrec spec = .ok 0)
    (hdom : ¬ |v.mean| ≤ |v.uncertainty|) (hneg : ¬ v.uncertainty < 0)
    (hU : extractU spec = .ok M)
    (hd : ¬ (-intLog10 v.uncertainty + (if M ≠ 0 then (M : ℤ) - 1 else 1)) < 0) :
    formatBody rec v spec = .ok
      (renderFixed v.mean (-intLog10 v.uncertainty +
          (if M ≠ 0 then (M : ℤ) - 1 else 1)).toNat (hasChar '+' spec || spec.isEmpty) ++
        '(' :: intChars ⌈v.uncertainty /
          (10 : ℚ) ^ (-(-intLog10 v.uncertainty + (if M ≠ 0 then (M : ℤ) - 1 else 1)))⌉ ++
        [')']) := by
  unfold formatBody
  rw [if_neg hm]
  dsimp only
  rw [if_neg hu, if_neg he, hp]
  dsimp only
  rw [if_neg hdom, if_neg hneg, hU]
  dsimp only
  rw [if_neg (by simp : ¬ ((0 : ℕ) ≠ 0 ∧ M ≠ 0)), if_neg (by simp : ¬ (0 : ℕ) ≠ 0),
    if_neg hd]

theorem formatBody_digits_floor (rec : Uncertain → List Char → Except FormatError (List Char))
    {v : Uncertain} {spec : List Char} {N : ℕ} (hm : v.mean ≠ 0) (hu : v.uncertainty ≠ 0)
    (he : ¬ 1 ≤ |intLog10 v.mean|) (hp : extractPrec spec = .ok N) (hN : N ≠ 0)
    (hdom : ¬ |v.mean| ≤ |v.uncertainty|) (hneg : ¬ v.uncertainty < 0)
    (hU : extractU spec = .ok 0) :
    formatBody rec v spec = .ok
      (renderFixed v.mean N (hasChar '+' spec || spec.isEmpty) ++
        '(' :: intChars (truncInt (v.uncertainty / (10 : ℚ) ^ (-(N : ℤ)))) ++ [')']) := by
  unfold formatBody
  rw [if_neg hm]
  dsimp only
  rw [if_neg hu, if_neg he, hp]
  dsimp only
  rw [if_neg hdom, if_neg hneg, hU]
  dsimp only
  rw [if_neg (by simp : ¬ (N ≠ 0 ∧ (0 : ℕ) ≠ 0)), if_pos hN]

theorem formatBody_bothError (rec : Uncertain → List Char → Except FormatError (List Char))
    {v : Uncertain} {spec : List Char} {N M : ℕ} (hm : v.mean ≠ 0) (hu : v.uncertainty ≠ 0)
    (he : ¬ 1 ≤ |intLog10 v.mean|) (hp : extractPrec spec = .ok N) (hN : N ≠ 0)
    (hdom : ¬ |v.mean| ≤ |v.uncertainty|) (hneg : ¬ v.uncertainty < 0)
    (hU : extractU spec = .ok M) (hM : M ≠ 0) :
    formatBody rec v spec = .error .precisionAndUncertainty := by
  unfold formatBody
  rw [if_neg hm]
  dsimp only
  rw [if_neg hu, if_neg he, hp]
  dsimp only
  rw [if_neg hdom, if_neg hneg, hU]
  dsimp only
  rw [if_pos ⟨hN, hM⟩]

theorem formatBody_uError (rec : Uncertain → List Char → Except FormatError (List Char))
    {v : Uncertain} {spec : List Char} {N : ℕ} {err : FormatError} (hm : v.mean ≠ 0)
    (hu : v.uncertainty ≠ 0) (he : ¬ 1 ≤ |intLog10 v.mean|)
    (hp : extractPrec spec = .ok N) (hdom : ¬ |v.mean| ≤ |v.uncertainty|)
    (hneg : ¬ v.uncertainty < 0) (hU : extractU spec = .error err) :
    formatBody rec v spec = .error err := by
  unfold formatBody
  rw [if_neg hm]
  dsimp only
  rw [if_neg hu, if_neg he, hp]
  dsimp only
  rw [if_neg hdom, if_neg hneg, hU]

/-! ### The normalized value of the exponent-factoring recursion -/

theorem normalize_mean (v : Uncertain) :
    (Uncertain.normalize v).mean = v.mean / (10 : ℚ) ^ intLog10 v.mean := rfl

theorem normalize_unc {v : Uncertain} (h : 0 ≤ v.uncertainty) :
    (Uncertain.normalize v).uncertainty =
      v.uncertainty / (10 : ℚ) ^ intLog10 v.mean := by
  show |v.uncertainty / (10 : ℚ) ^ intLog10 v.mean| = _
  rw [abs_div_zpow, abs_of_nonneg h]

theorem normalize_mean_ne {v : Uncertain} (hm : v.mean ≠ 0) :
    (Uncertain.normalize v).mean ≠ 0 := by
  rw [normalize_mean]
  exact div_ne_zero hm (by positivity)

theorem normalize_log {v : Uncertain} (hm : v.mean ≠ 0) :
    intLog10 (Uncertain.normalize v).mean = 0 := by
  rw [normalize_mean]
  exact intLog10_mantissa_zero hm

theorem normalize_unc_nonneg (v : Uncertain) :
    0 ≤ (Uncertain.normalize v).uncertainty := abs_nonneg _

theorem normalize_unc_ne {v : Uncertain} (h0 : 0 ≤ v.uncertainty)
    (hu : v.uncertainty ≠ 0) : (Uncertain.normalize v).uncertainty ≠ 0 := by
  rw [normalize_unc h0]
  exact div_ne_zero hu (by positivity)

theorem normalize_dom {v : Uncertain} (hu : 0 ≤ v.uncertainty) :
    (|(Uncertain.normalize v).mean| ≤ |(Uncertain.normalize v).uncertainty| ↔
      |v.mean| ≤ |v.uncertainty|) := by
  rw [normalize_mean, normalize_unc hu, abs_div_zpow, abs_div_zpow]
  exact div_le_div_right (zpow_pos (by norm_num) _)

theorem intLog10_nonpos {q : ℚ} (h0 : q ≠ 0) (h : |q| < 10) : intLog10 q ≤ 0 := by
  by_contra hc
  push_neg at hc
  have hb := (intLog10_bracket h0).1
  have h10 : (10 : ℚ) ^ (1 : ℤ) ≤ (10 : ℚ) ^ intLog10 q :=
    zpow_le_zpow_right₀ (by norm_num) (by omega)
  rw [zpow_one] at h10
  linarith

theorem validSpec_elim {spec : List Char} (h : validSpec spec = true) :
    ∃ n m, extractPrec spec = .ok n ∧ extractU spec = .ok m ∧ (n = 0 ∨ m = 0) := by
  unfold validSpec at h
  cases hp : extractPrec spec with
  | error e => rw [hp] at h; cases h
  | ok n =>
    rw [hp] at h
    cases hU : extractU spec with
    | error e => rw [hU] at h; cases h
    | ok m =>
      rw [hU] at h
      refine ⟨n, m, rfl, rfl, ?_⟩
      dsimp only at h
      rcases Bool.or_eq_true_iff.mp h with h1 | h1
      · exact Or.inl (beq_iff_eq.mp h1)
      · exact Or.inr (beq_iff_eq.mp h1)

theorem formatBody_base_ok (rec : Uncertain → List Char → Except FormatError (List Char))
    {v : Uncertain} {spec : List Char} (hm : v.mean ≠ 0) (hu : 0 ≤ v.uncertainty)
    (he : ¬ 1 ≤ |intLog10 v.mean|) (hvs : validSpec spec = true) :
    ∃ out, formatBody rec v spec = .ok out := by
  obtain ⟨n, m, hp, hU, hnm⟩ := validSpec_elim hvs
  by_cases hu0 : v.uncertainty = 0
  · exact ⟨_, formatBody_zeroUnc rec spec hm hu0⟩
  by_cases hdom : |v.mean| ≤ |v.uncertainty|
  · by_cases hn : n = 0
    · subst hn
      exact ⟨_, formatBody_dom_free rec hm hu0 he hp hdom⟩
    · exact ⟨_, formatBody_dom_fixed rec hm hu0 he hp hn hdom⟩
  · have hneg : ¬ v.uncertainty < 0 := not_lt.mpr hu
    have hupos : 0 < v.uncertainty := lt_of_le_of_ne hu (Ne.symm hu0)
    by_cases hn : n = 0
    · subst hn
      have he0 : intLog10 v.mean = 0 := by
        have h1 : |intLog10 v.mean| < 1 := not_le.mp he
        have h2 : |intLog10 v.mean| ≤ 0 := by omega
        exact abs_eq_zero.mp (le_antisymm h2 (abs_nonneg _))
      have hmb := intLog10_eq_zero_bounds hm he0
      have husmall : |v.uncertainty| < 10 := by
        push_neg at hdom
        linarith [hmb.2]
      have hprec_le : intLog10 v.uncertainty ≤ 0 := intLog10_nonpos hu0 husmall
      have hd : ¬ (-intLog10 v.uncertainty + (if m ≠ 0 then (m : ℤ) - 1 else 1)) < 0 := by
        split_ifs with hm0
        · have : (1 : ℤ) ≤ (m : ℤ) := by exact_mod_cast Nat.one_le_iff_ne_zero.mpr hm0
          omega
        · omega
      exact ⟨_, formatBody_digits_ceil rec hm hu0 he hp hdom hneg hU hd⟩
    · have hm0 : m = 0 := hnm.resolve_left hn
      subst hm0
      exact ⟨_, formatBody_digits_floor rec hm hu0 he hp hn hdom hneg hU⟩

/-! ### Bridging format results between `String` and `List Char` -/

theorem format_ok_elim {v : Uncertain} {s : String} {out : String}
    (h : Uncertain.format v s = .ok out) :
    formatFuel 2 v s.data = .ok out.data := by
  unfold Uncertain.format at h
  cases hx : formatFuel 2 v s.data with
  | ok l =>
    rw [hx] at h
    simp only [Except.map] at h
    cases h
    rfl
  | error e =>
    rw [hx] at h
    simp only [Except.map] at h
    cases h

theorem format_ok_intro {v : Uncertain} {s : String} {l : List Char}
    (h : formatFuel 2 v s.data = .ok l) :
    Uncertain.format v s = .ok (String.mk l) := by
  unfold Uncertain.format
  rw [h]
  rfl

theorem fromStringBody_inv (rec : List Char → Except ParseError Uncertain)
    (l : List Char) (v : Uncertain) (h : fromStringBody rec l = .ok v) :
    0 ≤ v.uncertainty := by
  unfold fromStringBody at h
  repeat' split at h
  all_goals cases h <;> exact abs_nonneg _

/-! ### The claims -/

/-- Claim C9 (confirmed): the constructor accepts any two rationals, stores
the mean unchanged and the uncertainty as its absolute value, and raises no
error (it is a total function); hence `uncertainty ≥ 0` holds for every
constructed value, including every value built by the parser — every exit of
`from_string` goes through the constructor. -/
theorem C9_constructor_invariant :
    (∀ m u : ℚ, (Uncertain.make m u).mean = m ∧
      (Uncertain.make m u).uncertainty = |u| ∧ 0 ≤ (Uncertain.make m u).uncertainty) ∧
    (∀ (s : String) (v : Uncertain), Uncertain.fromString s = .ok v →
      0 ≤ v.uncertainty) := by
  constructor
  · intro m u
    exact ⟨rfl, rfl, abs_nonneg u⟩
  · intro s v h
    unfold Uncertain.fromString at h
    exact fromStringBody_inv _ _ _ h

/-- Claim C10 (confirmed): for a nonzero exponent, `_exponent` always emits
an explicit sign — `'e'` or `' × 10^'` followed by `'+'` or `'-'` and the
digits of `|e|`, never an unsigned exponent; and every successful `format`
of a value whose exponent is nonzero ends with exactly that suffix. -/
theorem C10_exponent_signed (e : ℤ) (E : Bool) (he : e ≠ 0) :
    (∃ ds, allC isDig ds = true ∧
      expChars e E = (if E then ['e'] else [' ', '×', ' ', '1', '0', '^']) ++
        (if e < 0 then '-' else '+') :: ds) ∧
    (∀ (v : Uncertain) (s : String) (out : String),
      Uncertain.format v s = .ok out → intLog10 v.mean = e →
      ∃ stem, out.data = stem ++ expChars e (hasChar 'e' s.data)) := by
  constructor
  · refine ⟨natChars e.natAbs, allC_natChars _, ?_⟩
    unfold expChars intSignedChars
    rw [if_neg he]
    by_cases hneg : e < 0
    · rw [if_pos hneg, if_pos hneg]
    · rw [if_neg hneg, if_neg hneg]
  · intro v s out hok hlog
    have h2 := format_ok_elim hok
    have hm : v.mean ≠ 0 := by
      intro hm0
      rw [formatFuel_succ, formatBody_meanZero _ _ _ hm0] at h2
      cases h2
    by_cases hu : v.uncertainty = 0
    · rw [formatFuel_succ, formatBody_zeroUnc _ _ hm hu, hlog] at h2
      simp only [Except.ok.injEq] at h2
      exact ⟨_, h2.symm⟩
    · have habs : 1 ≤ |e| := by
        rcases lt_trichotomy e 0 with h | h | h
        · rw [abs_of_neg h]; omega
        · exact absurd h he
        · rw [abs_of_pos h]; omega
      rw [formatFuel_succ, formatBody_rec _ _ hm hu (hlog ▸ habs), hlog] at h2
      cases hstem : formatFuel 1 (Uncertain.normalize v) s.data with
      | ok stem =>
        rw [hstem] at h2
        dsimp only at h2
        simp only [Except.ok.injEq] at h2
        exact ⟨stem, h2.symm⟩
      | error err =>
        rw [hstem] at h2
        dsimp only at h2
        cases h2

/-- Witness for C10 at `e = -1`, `E = false`, on the electron-mass default
rendering. -/
theorem C10_witness :
    (-1 : ℤ) ≠ 0 ∧
    (∃ ds, allC isDig ds = true ∧
      expChars (-1) false = [' ', '×', ' ', '1', '0', '^'] ++
        (if (-1 : ℤ) < 0 then '-' else '+') :: ds) ∧
    (∀ (v : Uncertain) (s : String) (out : String),
      Uncertain.format v s = .ok out → intLog10 v.mean = -1 →
      ∃ stem, out.data = stem ++ expChars (-1) (hasChar 'e' s.data)) :=
  ⟨by decide, C10_exponent_signed (-1) false (by decide)⟩

/-- Claim C4 (code_bug): `from_string` only recognizes capital `E`
scientific notation, so on the docstring's own example
`9.1093837015(28)e-31` — lowercase `e` — the trailing exponent is silently
swallowed into the discarded text after the closing parenthesis: the result
has mean `9.1093837015` and uncertainty `2.8e-9` instead of the documented
`9.1093837015e-31` and `2.8e-40`. -/
theorem C4_lowercase_e_ignored :
    Uncertain.fromString "9.1093837015(28)e-31" =
      .ok ⟨91093837015 / 10000000000, 28 / 10000000000⟩ ∧
    (91093837015 / 10000000000 : ℚ) ≠ 91093837015 / 10 ^ 41 := by
  constructor
  · decide
  · decide

/-- Counterexample to claim C1 as stated: the spec `".3u2"` contains both a
`.3` and a `u2` token, yet formatting a zero-uncertainty value returns an
output string instead of raising — the zero-uncertainty early return (source
line 159) fires before the mutual-exclusion check (line 206). -/
theorem C1_counterexample :
    extractPrec ".3u2".data = .ok 3 ∧ extractU ".3u2".data = .ok 2 ∧
    Uncertain.format (Uncertain.make (314159 / 100000) 0) ".3u2" = .ok "3.14159" := by
  refine ⟨by decide, by decide, by decide⟩

/-- Claim C1 (amended): for a value that actually reaches the
parenthetical-digits branch — nonzero mean and `0 < uncertainty < |mean|` —
a spec carrying both `.N` (N ≥ 1) and `uM` (M ≥ 1) makes `format` raise the
mutual-exclusion `ValueError` and produce no output string. -/
theorem C1_amended (v : Uncertain) (s : String) (N M : ℕ)
    (hm : v.mean ≠ 0) (hu0 : 0 < v.uncertainty) (hlt : v.uncertainty < |v.mean|)
    (hp : extractPrec s.data = .ok N) (hN : 1 ≤ N)
    (hU : extractU s.data = .ok M) (hM : 1 ≤ M) :
    Uncertain.format v s = .error .precisionAndUncertainty := by
  unfold Uncertain.format
  suffices h : formatFuel 2 v s.data = .error .precisionAndUncertainty by
    rw [h]
    rfl
  have hu' : v.uncertainty ≠ 0 := ne_of_gt hu0
  have hdom : ¬ |v.mean| ≤ |v.uncertainty| := by
    rw [abs_of_pos hu0]
    exact not_le.mpr hlt
  by_cases he : 1 ≤ |intLog10 v.mean|
  · rw [formatFuel_succ, formatBody_rec _ _ hm hu' he]
    have h1 : formatBody (formatFuel 0) (Uncertain.normalize v) s.data =
        .error .precisionAndUncertainty := by
      refine formatBody_bothError _ (normalize_mean_ne hm)
        (normalize_unc_ne hu0.le hu') ?_ hp (by omega) ?_ ?_ hU (by omega)
      · rw [normalize_log hm]
        decide
      · intro hh
        exact hdom ((normalize_dom hu0.le).mp hh)
      · exact not_lt.mpr (normalize_unc_nonneg v)
    rw [show formatFuel 1 (Uncertain.normalize v) s.data =
      .error .precisionAndUncertainty from h1]
  · rw [formatFuel_succ]
    exact formatBody_bothError _ hm hu' he hp (by omega) hdom
      (not_lt.mpr hu0.le) hU (by omega)

/-- Witness for the amended C1 on `Uncertain(3/2, 1/8)` with spec `".2u3"`. -/
theorem C1_witness :
    ((Uncertain.make (3 / 2) (1 / 8)).mean ≠ 0 ∧
      0 < (Uncertain.make (3 / 2) (1 / 8)).uncertainty ∧
      (Uncertain.make (3 / 2) (1 / 8)).uncertainty <
        |(Uncertain.make (3 / 2) (1 / 8)).mean| ∧
      extractPrec ".2u3".data = .ok 2 ∧ 1 ≤ 2 ∧
      extractU ".2u3".data = .ok 3 ∧ 1 ≤ 3) ∧
    Uncertain.format (Uncertain.make (3 / 2) (1 / 8)) ".2u3" =
      .error .precisionAndUncertainty :=
  ⟨by decide, C1_amended _ _ 2 3 (by decide) (by decide) (by decide) (by decide)
    (by decide) (by decide) (by decide)⟩

/-- Counterexample to claim C2 as stated: with mean exactly 0, formatting
fails (the source computes `int(np.floor(np.log10(0)))`, an `OverflowError`)
even though the claim promises success for every value including zero mean. -/
theorem C2_counterexample :
    Uncertain.format (Uncertain.make 0 1) "" = .error .meanZero := by
  decide

/-- Claim C2 (amended): for every value with nonzero mean (and the
constructor's nonnegative uncertainty) and every syntactically valid spec —
digit tokens well-formed and not both `.N` and `uM` with `N, M ≥ 1` —
formatting succeeds and returns a string. -/
theorem C2_amended (v : Uncertain) (s : String) (hm : v.mean ≠ 0)
    (hu : 0 ≤ v.uncertainty) (hvs : validSpec s.data = true) :
    ∃ out, Uncertain.format v s = .ok out := by
  by_cases he : 1 ≤ |intLog10 v.mean|
  · by_cases hu0 : v.uncertainty = 0
    · refine ⟨String.mk (renderFree (v.mean / (10 : ℚ) ^ intLog10 v.mean)
        (hasChar '+' s.data || s.data.isEmpty) ++
        expChars (intLog10 v.mean) (hasChar 'e' s.data)), ?_⟩
      unfold Uncertain.format
      rw [formatFuel_succ, formatBody_zeroUnc _ _ hm hu0]
      rfl
    · obtain ⟨stem, hstem⟩ := formatBody_base_ok (formatFuel 0)
        (normalize_mean_ne hm) (normalize_unc_nonneg v)
        (by rw [normalize_log hm]; decide) hvs
      refine ⟨String.mk (stem ++ expChars (intLog10 v.mean) (hasChar 'e' s.data)), ?_⟩
      unfold Uncertain.format
      rw [formatFuel_succ, formatBody_rec _ _ hm hu0 he]
      rw [show formatFuel 1 (Uncertain.normalize v) s.data = .ok stem from hstem]
      rfl
  · obtain ⟨out, hout⟩ := formatBody_base_ok (formatFuel 1) hm hu he hvs
    refine ⟨String.mk out, ?_⟩
    unfold Uncertain.format
    rw [formatFuel_succ, hout]
    rfl

/-- Witness for the amended C2 on `Uncertain(5/2, 1/8)` with spec `"+u2"`. -/
theorem C2_witness :
    ((Uncertain.make (5 / 2) (1 / 8)).mean ≠ 0 ∧
      0 ≤ (Uncertain.make (5 / 2) (1 / 8)).uncertainty ∧
      validSpec "+u2".data = true) ∧
    ∃ out, Uncertain.format (Uncertain.make (5 / 2) (1 / 8)) "+u2" = .ok out :=
  ⟨by decide, C2_amended _ _ (by decide) (by decide) (by decide)⟩

/-! ### Shape of the produced strings -/

theorem not_one_le_abs_iff {e : ℤ} : ¬ 1 ≤ |e| ↔ e = 0 := by
  constructor
  · intro h
    have h1 : |e| < 1 := not_le.mp h
    exact Int.abs_lt_one_iff.mp h1
  · intro h
    subst h
    decide

theorem digits_nonneg {v : Uncertain} (hm : v.mean ≠ 0)
    (he : ¬ 1 ≤ |intLog10 v.mean|) (hu0 : 0 < v.uncertainty)
    (hdom : ¬ |v.mean| ≤ |v.uncertainty|) (m : ℕ) :
    ¬ (-intLog10 v.uncertainty + (if m ≠ 0 then (m : ℤ) - 1 else 1)) < 0 := by
  have he0 : intLog10 v.mean = 0 := not_one_le_abs_iff.mp he
  have hmb := intLog10_eq_zero_bounds hm he0
  have husmall : |v.uncertainty| < 10 := by
    push_neg at hdom
    linarith [hmb.2]
  have hprec_le : intLog10 v.uncertainty ≤ 0 := intLog10_nonpos (ne_of_gt hu0) husmall
  split_ifs with hm0
  · have : (1 : ℤ) ≤ (m : ℤ) := by exact_mod_cast Nat.one_le_iff_ne_zero.mpr hm0
    omega
  · omega

theorem renderFixed_ne_nil (q : ℚ) (d : ℕ) (f : Bool) : renderFixed q d f ≠ [] := by
  unfold renderFixed
  intro h
  rcases List.append_eq_nil.mp (List.append_eq_nil.mp h).1 with ⟨_, h2⟩
  exact natChars_ne_nil _ h2

theorem renderFree_ne_nil (q : ℚ) (f : Bool) : renderFree q f ≠ [] := by
  unfold renderFree
  split_ifs <;> exact renderFixed_ne_nil _ _ _

theorem head_of_append_ne_nil {A B : List Char} (h : A ≠ []) :
    (A ++ B).head? = A.head? := by
  cases A with
  | nil => exact absurd rfl h
  | cons x xs => rfl

theorem head_ne_of_allC {p : Char → Bool} {l : List Char} {c : Char}
    (hl : allC p l = true) (hc : p c = false) :
    l.head? ≠ some c := by
  cases l with
  | nil => simp
  | cons x xs =>
    simp only [allC, Bool.and_eq_true] at hl
    obtain ⟨h1, _⟩ := hl
    intro h
    injection h with h
    rw [h] at h1
    rw [h1] at hc
    cases hc

/-- Counterexample to claim C6 as stated: a zero-uncertainty value with mean
0 produces no output at all — the exponent computation at source line 147
raises before the zero-uncertainty branch at line 159 is reached. -/
theorem C6_counterexample :
    Uncertain.format (Uncertain.make 0 0) "" = .error .meanZero := by
  decide

/-- Claim C6 (amended): for nonzero mean and uncertainty exactly 0, with any
spec whatsoever (even ones that would raise in later branches), the output is
exactly the signed free-form mantissa followed by the exponent suffix, with
no parenthetical indicator and no `±` sign anywhere. -/
theorem C6_amended (v : Uncertain) (s : String) (hm : v.mean ≠ 0)
    (hu : v.uncertainty = 0) :
    Uncertain.format v s = .ok (String.mk
      (renderFree (v.mean / (10 : ℚ) ^ intLog10 v.mean)
        (hasChar '+' s.data || s.data.isEmpty) ++
        expChars (intLog10 v.mean) (hasChar 'e' s.data))) ∧
    hasChar '(' (renderFree (v.mean / (10 : ℚ) ^ intLog10 v.mean)
        (hasChar '+' s.data || s.data.isEmpty) ++
        expChars (intLog10 v.mean) (hasChar 'e' s.data)) = false ∧
    hasChar '±' (renderFree (v.mean / (10 : ℚ) ^ intLog10 v.mean)
        (hasChar '+' s.data || s.data.isEmpty) ++
        expChars (intLog10 v.mean) (hasChar 'e' s.data)) = false := by
  refine ⟨?_, ?_, ?_⟩
  · apply format_ok_intro
    rw [formatFuel_succ]
    exact formatBody_zeroUnc _ _ hm hu
  · rw [hasChar_append,
      hasChar_false_of_allC (by decide) (renderFree_allNum _ _),
      hasChar_false_of_allC (by decide) (expChars_allExp _ _)]
    rfl
  · rw [hasChar_append,
      hasChar_false_of_allC (by decide) (renderFree_allNum _ _),
      hasChar_false_of_allC (by decide) (expChars_allExp _ _)]
    rfl

/-- Witness for the amended C6 on `Uncertain(314159/100000, 0)` with the
both-token spec `".3u2"`. -/
theorem C6_witness :
    ((Uncertain.make (314159 / 100000) 0).mean ≠ 0 ∧
      (Uncertain.make (314159 / 100000) 0).uncertainty = 0) ∧
    Uncertain.format (Uncertain.make (314159 / 100000) 0) ".3u2" = .ok (String.mk
      (renderFree ((Uncertain.make (314159 / 100000) 0).mean /
          (10 : ℚ) ^ intLog10 (Uncertain.make (314159 / 100000) 0).mean)
        (hasChar '+' ".3u2".data || ".3u2".data.isEmpty) ++
        expChars (intLog10 (Uncertain.make (314159 / 100000) 0).mean)
          (hasChar 'e' ".3u2".data))) :=
  ⟨by decide, (C6_amended (Uncertain.make (314159 / 100000) 0) ".3u2"
    (by decide) (by decide)).1⟩

theorem intChars_allNum (z : ℤ) : allC numC (intChars z) = true := by
  unfold intChars
  have h := allC_mono isDig_imp_numC (allC_natChars z.natAbs)
  split_ifs <;> simp [allC, h] <;> decide

theorem exists_head_of_allC {p : Char → Bool} {l : List Char}
    (hl : allC p l = true) (hne : l ≠ []) :
    ∃ c rest, l = c :: rest ∧ p c = true := by
  cases l with
  | nil => exact absurd rfl hne
  | cons x xs =>
    simp only [allC, Bool.and_eq_true] at hl
    exact ⟨x, xs, rfl, hl.1⟩

theorem hasChar_iff_mem (c : Char) (l : List Char) : hasChar c l = true ↔ c ∈ l := by
  induction l with
  | nil => simp [hasChar]
  | cons x xs ih =>
    simp only [hasChar, List.mem_cons]
    by_cases hx : x = c
    · simp [hx]
    · simp only [hx, if_false, ih]
      constructor
      · exact Or.inr
      · rintro (h | h)
        · exact absurd h.symm hx
        · exact h

theorem hasChar_eq_false_iff (c : Char) (l : List Char) :
    hasChar c l = false ↔ ¬ c ∈ l := by
  rw [← hasChar_iff_mem]
  cases hasChar c l <;> simp

theorem not_mem_of_allC {p : Char → Bool} {c : Char} {l : List Char}
    (hl : allC p l = true) (hc : p c = false) : ¬ c ∈ l := by
  intro hmem
  rw [← hasChar_iff_mem, hasChar_false_of_allC hc hl] at hmem
  cases hmem

theorem exists_cons_append {A : List Char} (B : List Char)
    (h : ∃ c rest, A = c :: rest ∧ numC c = true) :
    ∃ c rest, A ++ B = c :: rest ∧ numC c = true := by
  obtain ⟨c, rest, h1, h2⟩ := h
  exact ⟨c, rest ++ B, by rw [h1]; rfl, h2⟩

theorem formatBody_base_shape (rec : Uncertain → List Char → Except FormatError (List Char))
    {v : Uncertain} {spec out : List Char}
    (hm : v.mean ≠ 0) (hu0 : 0 ≤ v.uncertainty) (hu : v.uncertainty ≠ 0)
    (he : ¬ 1 ≤ |intLog10 v.mean|)
    (hok : formatBody rec v spec = .ok out) :
    (|v.mean| ≤ |v.uncertainty| →
      out.head? = some '(' ∧ hasChar '±' out = true) ∧
    (¬ |v.mean| ≤ |v.uncertainty| →
      hasChar '±' out = false ∧ hasChar '(' out = true ∧
      ∃ c rest, out = c :: rest ∧ numC c = true) := by
  cases hp : extractPrec spec with
  | error err =>
    rw [formatBody_precError rec hm hu he hp] at hok
    cases hok
  | ok fprec =>
    by_cases hdom : |v.mean| ≤ |v.uncertainty|
    · refine ⟨fun _ => ?_, fun hcon => absurd hdom hcon⟩
      by_cases hfp : fprec = 0
      · subst hfp
        rw [formatBody_dom_free rec hm hu he hp hdom] at hok
        injection hok with hout
        subst hout
        refine ⟨rfl, ?_⟩
        rw [hasChar_iff_mem]
        simp [List.mem_append]
      · rw [formatBody_dom_fixed rec hm hu he hp hfp hdom] at hok
        injection hok with hout
        subst hout
        refine ⟨rfl, ?_⟩
        rw [hasChar_iff_mem]
        simp [List.mem_append]
    · refine ⟨fun hcon => absurd hcon hdom, fun _ => ?_⟩
      have hneg : ¬ v.uncertainty < 0 := not_lt.mpr hu0
      have hupos : 0 < v.uncertainty := lt_of_le_of_ne hu0 (Ne.symm hu)
      cases hU : extractU spec with
      | error err =>
        rw [formatBody_uError rec hm hu he hp hdom hneg hU] at hok
        cases hok
      | ok M =>
        by_cases hfp : fprec = 0
        · subst hfp
          have hd := digits_nonneg hm he hupos hdom M
          rw [formatBody_digits_ceil rec hm hu he hp hdom hneg hU hd] at hok
          injection hok with hout
          subst hout
          have hm1 := not_mem_of_allC (renderFixed_allNum v.mean
            (-intLog10 v.uncertainty + (if M ≠ 0 then (M : ℤ) - 1 else 1)).toNat
            (hasChar '+' spec || spec.isEmpty)) (show numC '±' = false by decide)
          have hm2 := not_mem_of_allC (intChars_allNum
            ⌈v.uncertainty / (10 : ℚ) ^
              (-(-intLog10 v.uncertainty + (if M ≠ 0 then (M : ℤ) - 1 else 1)))⌉)
            (show numC '±' = false by decide)
          refine ⟨?_, ?_, ?_⟩
          · rw [hasChar_eq_false_iff]
            intro hmem
            simp only [List.mem_append, List.mem_cons, List.mem_singleton] at hmem
            rcases hmem with (h | (h | h)) | h
            · exact hm1 h
            · exact absurd h (by decide)
            · exact hm2 h
            · exact absurd h (by decide)
          · rw [hasChar_iff_mem]
            simp [List.mem_append]
          · apply exists_cons_append
            apply exists_cons_append
            exact exists_head_of_allC
              (renderFixed_allNum v.mean (-intLog10 v.uncertainty +
                (if M ≠ 0 then (M : ℤ) - 1 else 1)).toNat
                (hasChar '+' spec || spec.isEmpty)) (renderFixed_ne_nil _ _ _)
        · by_cases hM : M = 0
          · subst hM
            rw [formatBody_digits_floor rec hm hu he hp hfp hdom hneg hU] at hok
            injection hok with hout
            subst hout
            have hm1 := not_mem_of_allC (renderFixed_allNum v.mean fprec
              (hasChar '+' spec || spec.isEmpty)) (show numC '±' = false by decide)
            have hm2 := not_mem_of_allC (intChars_allNum
              (truncInt (v.uncertainty / (10 : ℚ) ^ (-(fprec : ℤ)))))
              (show numC '±' = false by decide)
            refine ⟨?_, ?_, ?_⟩
            · rw [hasChar_eq_false_iff]
              intro hmem
              simp only [List.mem_append, List.mem_cons, List.mem_singleton] at hmem
              rcases hmem with (h | (h | h)) | h
              · exact hm1 h
              · exact absurd h (by decide)
              · exact hm2 h
              · exact absurd h (by decide)
            · rw [hasChar_iff_mem]
              simp [List.mem_append]
            · apply exists_cons_append
              apply exists_cons_append
              exact exists_head_of_allC
                (renderFixed_allNum v.mean fprec (hasChar '+' spec || spec.isEmpty))
                (renderFixed_ne_nil _ _ _)
          · rw [formatBody_bothError rec hm hu he hp hfp hdom hneg hU hM] at hok
            cases hok

/-- Counterexample to claim C7 as stated: `Uncertain(0, 5)` has nonzero
uncertainty dominating the mean (`uncertainty ≥ |mean|`), so the claim
demands the `(mean ± uncertainty)` rendering, but `format` raises instead —
the zero mean makes the exponent computation fail before any branch. -/
theorem C7_counterexample :
    |(Uncertain.make 0 5).mean| ≤ (Uncertain.make 0 5).uncertainty ∧
    Uncertain.format (Uncertain.make 0 5) "" = .error .meanZero :=
  ⟨by decide, by decide⟩

/-- Claim C7 (amended): for nonzero mean and nonzero (constructor-
nonnegative) uncertainty, whenever `format` returns an output, the output is
the parenthesized explicit-± rendering — starts with `(` and contains `±` —
exactly when `uncertainty ≥ |mean|`; when `uncertainty < |mean|` it is the
parenthetical-digits rendering: it contains `(` but no `±` and does not
start with `(`. -/
theorem C7_amended (v : Uncertain) (s : String) (out : String)
    (hm : v.mean ≠ 0) (hu0 : 0 ≤ v.uncertainty) (hu : v.uncertainty ≠ 0)
    (hok : Uncertain.format v s = .ok out) :
    ((|v.mean| ≤ v.uncertainty →
      out.data.head? = some '(' ∧ hasChar '±' out.data = true) ∧
    (v.uncertainty < |v.mean| →
      hasChar '±' out.data = false ∧ hasChar '(' out.data = true ∧
      out.data.head? ≠ some '(')) ∧
    (hasChar '±' out.data = true ↔ |v.mean| ≤ v.uncertainty) := by
  have habs : |v.uncertainty| = v.uncertainty := abs_of_nonneg hu0
  have h2 := format_ok_elim hok
  have key : (|v.mean| ≤ v.uncertainty →
      out.data.head? = some '(' ∧ hasChar '±' out.data = true) ∧
      (¬ |v.mean| ≤ v.uncertainty →
        hasChar '±' out.data = false ∧ hasChar '(' out.data = true ∧
        ∃ c rest, out.data = c :: rest ∧ numC c = true) := by
    by_cases he : 1 ≤ |intLog10 v.mean|
    · rw [formatFuel_succ, formatBody_rec _ _ hm hu he] at h2
      cases hstem : formatFuel 1 (Uncertain.normalize v) s.data with
      | error err =>
        rw [hstem] at h2
        dsimp only at h2
        cases h2
      | ok stem =>
        rw [hstem] at h2
        dsimp only at h2
        injection h2 with h2
        rw [formatFuel_succ] at hstem
        have hshape := formatBody_base_shape (formatFuel 0) (normalize_mean_ne hm)
          (normalize_unc_nonneg v) (normalize_unc_ne hu0 hu)
          (by rw [normalize_log hm]; decide) hstem
        have hdomiff : (|(Uncertain.normalize v).mean| ≤
            |(Uncertain.normalize v).uncertainty|) ↔ |v.mean| ≤ v.uncertainty := by
          rw [normalize_dom hu0, habs]
        have hsuffpm : hasChar '±' (expChars (intLog10 v.mean) (hasChar 'e' s.data)) = false :=
          hasChar_false_of_allC (by decide) (expChars_allExp _ _)
        have hsuffpar : hasChar '(' (expChars (intLog10 v.mean) (hasChar 'e' s.data)) = false :=
          hasChar_false_of_allC (by decide) (expChars_allExp _ _)
        constructor
        · intro hdm
          obtain ⟨hhead, hpm⟩ := hshape.1 (hdomiff.mpr hdm)
          constructor
          · rw [← h2, head_of_append_ne_nil (by intro hnil; rw [hnil] at hhead; cases hhead)]
            exact hhead
          · rw [← h2, hasChar_append, hpm, hsuffpm]
            rfl
        · intro hdm
          obtain ⟨hpm, hpar, c, rest, hcr, hc⟩ := hshape.2 (fun hh => hdm (hdomiff.mp hh))
          refine ⟨?_, ?_, c, rest ++ expChars (intLog10 v.mean) (hasChar 'e' s.data), ?_, hc⟩
          · rw [← h2, hasChar_append, hpm, hsuffpm]
            rfl
          · rw [← h2, hasChar_append, hpar]
            rfl
          · rw [← h2, hcr]
            rfl
    · rw [formatFuel_succ] at h2
      have hshape := formatBody_base_shape (formatFuel 1) hm hu0 hu he h2
      constructor
      · intro hdm
        exact hshape.1 (by rw [habs]; exact hdm)
      · intro hdm
        exact hshape.2 (by rw [habs]; exact hdm)
  have hiff : hasChar '±' out.data = true ↔ |v.mean| ≤ v.uncertainty := by
    constructor
    · intro hpm
      by_contra hdm
      obtain ⟨hpm', _, _⟩ := key.2 hdm
      rw [hpm'] at hpm
      cases hpm
    · intro hdm
      exact (key.1 hdm).2
  refine ⟨⟨key.1, fun hlt => ?_⟩, hiff⟩
  obtain ⟨hpm, hpar, c, rest, hcr, hc⟩ := key.2 (not_le.mpr hlt)
  refine ⟨hpm, hpar, ?_⟩
  rw [hcr]
  intro heq
  injection heq with heq
  rw [heq] at hc
  exact absurd hc (by decide)

/-- Witness for the amended C7: `Uncertain(5/2, 1/8)` with the default spec
yields the parenthetical-digits form, and `Uncertain(1, 10)` the ± form. -/
theorem C7_witness :
    ((Uncertain.make 1 10).mean ≠ 0 ∧ 0 ≤ (Uncertain.make 1 10).uncertainty ∧
      (Uncertain.make 1 10).uncertainty ≠ 0 ∧
      Uncertain.format (Uncertain.make 1 10) "" = .ok "(+1 ± 10)") ∧
    (hasChar '±' ("(+1 ± 10)" : String).data = true ↔
      |(Uncertain.make 1 10).mean| ≤ (Uncertain.make 1 10).uncertainty) :=
  ⟨⟨by decide, by decide, by decide, by decide⟩,
    (C7_amended (Uncertain.make 1 10) "" "(+1 ± 10)" (by decide) (by decide)
      (by decide) (by decide)).2⟩

/-- Claim C8 (confirmed): in the parenthetical-digits branch — exponent 0
and `0 < uncertainty < |mean|` — an explicit precision `.N` (with no
effective `u` token) makes the indicator the truncation
`⌊uncertainty·10^N⌋`, which may be `0`; otherwise the indicator is the
ceiling `⌈uncertainty·10^digits⌉` with
`digits = -⌊log₁₀ uncertainty⌋ + (M - 1 if uM is given with M ≥ 1, else 1)`,
and the ceiling indicator never understates the uncertainty. -/
theorem C8_indicator (v : Uncertain) (s : String)
    (hm : v.mean ≠ 0) (hlog : intLog10 v.mean = 0)
    (hu0 : 0 < v.uncertainty) (hlt : v.uncertainty < |v.mean|) :
    (∀ N, extractPrec s.data = .ok N → 1 ≤ N → extractU s.data = .ok 0 →
      Uncertain.format v s = .ok (String.mk
        (renderFixed v.mean N (hasChar '+' s.data || s.data.isEmpty) ++
          '(' :: intChars (truncInt (v.uncertainty / (10 : ℚ) ^ (-(N : ℤ)))) ++ [')'])) ∧
      truncInt (v.uncertainty / (10 : ℚ) ^ (-(N : ℤ))) =
        ⌊v.uncertainty * (10 : ℚ) ^ (N : ℤ)⌋) ∧
    (∀ M, extractPrec s.data = .ok 0 → extractU s.data = .ok M →
      Uncertain.format v s = .ok (String.mk
        (renderFixed v.mean
          (-intLog10 v.uncertainty + (if M ≠ 0 then (M : ℤ) - 1 else 1)).toNat
          (hasChar '+' s.data || s.data.isEmpty) ++
          '(' :: intChars ⌈v.uncertainty / (10 : ℚ) ^
            (-(-intLog10 v.uncertainty + (if M ≠ 0 then (M : ℤ) - 1 else 1)))⌉ ++ [')'])) ∧
      ⌈v.uncertainty / (10 : ℚ) ^
          (-(-intLog10 v.uncertainty + (if M ≠ 0 then (M : ℤ) - 1 else 1)))⌉ =
        ⌈v.uncertainty * (10 : ℚ) ^
          (-intLog10 v.uncertainty + (if M ≠ 0 then (M : ℤ) - 1 else 1))⌉ ∧
      v.uncertainty ≤ (⌈v.uncertainty * (10 : ℚ) ^
          (-intLog10 v.uncertainty + (if M ≠ 0 then (M : ℤ) - 1 else 1))⌉ : ℚ) *
        (10 : ℚ) ^ (-(-intLog10 v.uncertainty + (if M ≠ 0 then (M : ℤ) - 1 else 1)))) := by
  have he : ¬ 1 ≤ |intLog10 v.mean| := by
    rw [hlog]
    decide
  have hu : v.uncertainty ≠ 0 := ne_of_gt hu0
  have hdom : ¬ |v.mean| ≤ |v.uncertainty| := by
    rw [abs_of_pos hu0]
    exact not_le.mpr hlt
  have hneg : ¬ v.uncertainty < 0 := not_lt.mpr hu0.le
  have hdiv : ∀ z : ℤ, v.uncertainty / (10 : ℚ) ^ (-z) = v.uncertainty * (10 : ℚ) ^ z := by
    intro z
    rw [zpow_neg, div_eq_mul_inv, inv_inv]
  constructor
  · intro N hp hN hU
    constructor
    · apply format_ok_intro
      rw [formatFuel_succ]
      exact formatBody_digits_floor _ hm hu he hp (by omega) hdom hneg hU
    · rw [hdiv]
      unfold truncInt
      rw [if_neg (not_lt.mpr (by positivity))]
  · intro M hp hU
    have hd := digits_nonneg hm he hu0 hdom M
    refine ⟨?_, ?_, ?_⟩
    · apply format_ok_intro
      rw [formatFuel_succ]
      exact formatBody_digits_ceil _ hm hu he hp hdom hneg hU hd
    · rw [hdiv]
    · rw [← hdiv]
      set D : ℤ := -intLog10 v.uncertainty + (if M ≠ 0 then (M : ℤ) - 1 else 1) with hD
      have hc := Int.le_ceil (v.uncertainty / (10 : ℚ) ^ (-D))
      have hpow : (0 : ℚ) < (10 : ℚ) ^ (-D) := zpow_pos (by norm_num) _
      calc v.uncertainty = v.uncertainty / (10 : ℚ) ^ (-D) * (10 : ℚ) ^ (-D) := by
            field_simp
      _ ≤ (⌈v.uncertainty / (10 : ℚ) ^ (-D)⌉ : ℚ) * (10 : ℚ) ^ (-D) := by
            exact mul_le_mul_of_nonneg_right hc hpow.le

/-- Witness for C8 on the electron-mass mantissa with the spec `".3"` from
the source docstring — the precision path, where the truncated indicator is
`(0)`. -/
theorem C8_witness :
    ((Uncertain.make (51099895 / 10000000) (15 / 10000000000)).mean ≠ 0 ∧
      intLog10 (Uncertain.make (51099895 / 10000000) (15 / 10000000000)).mean = 0 ∧
      0 < (Uncertain.make (51099895 / 10000000) (15 / 10000000000)).uncertainty ∧
      (Uncertain.make (51099895 / 10000000) (15 / 10000000000)).uncertainty <
        |(Uncertain.make (51099895 / 10000000) (15 / 10000000000)).mean| ∧
      extractPrec ".3".data = .ok 3 ∧ extractU ".3".data = .ok 0) ∧
    (Uncertain.format (Uncertain.make (51099895 / 10000000) (15 / 10000000000)) ".3" =
        .ok (String.mk
          (renderFixed (Uncertain.make (51099895 / 10000000) (15 / 10000000000)).mean 3
            (hasChar '+' ".3".data || ".3".data.isEmpty) ++
            '(' :: intChars (truncInt
              ((Uncertain.make (51099895 / 10000000) (15 / 10000000000)).uncertainty /
                (10 : ℚ) ^ (-((3 : ℕ) : ℤ)))) ++ [')'])) ∧
      truncInt ((Uncertain.make (51099895 / 10000000) (15 / 10000000000)).uncertainty /
          (10 : ℚ) ^ (-((3 : ℕ) : ℤ))) =
        ⌊(Uncertain.make (51099895 / 10000000) (15 / 10000000000)).uncertainty *
          (10 : ℚ) ^ ((3 : ℕ) : ℤ)⌋) :=
  ⟨⟨by decide, by decide, by decide, by decide, by decide, by decide⟩,
    (C8_indicator (Uncertain.make (51099895 / 10000000) (15 / 10000000000)) ".3"
      (by decide) (by decide) (by decide) (by decide)).1 3 (by decide) (by decide)
      (by decide)⟩

/-! ### Bounds on the rendered mantissa -/

theorem rounded_mantissa_bounds {q : ℚ} (d : ℕ) (h1 : 1 ≤ |q|) (h2 : |q| < 10) :
    1 ≤ |(roundHalfEven (q * (10 : ℚ) ^ d) : ℚ) / (10 : ℚ) ^ d| ∧
    |(roundHalfEven (q * (10 : ℚ) ^ d) : ℚ) / (10 : ℚ) ^ d| ≤ 10 := by
  have hp : (0 : ℚ) < (10 : ℚ) ^ d := by positivity
  have hxle := roundHalfEven_le (q * (10 : ℚ) ^ d)
  have hxge := le_roundHalfEven (q * (10 : ℚ) ^ d)
  have habs : |(roundHalfEven (q * (10 : ℚ) ^ d) : ℚ) / (10 : ℚ) ^ d| =
      |(roundHalfEven (q * (10 : ℚ) ^ d) : ℚ)| / (10 : ℚ) ^ d := by
    rw [abs_div, abs_of_pos hp]
  rw [habs]
  have hpow1 : (1 : ℚ) ≤ (10 : ℚ) ^ d := one_le_pow₀ (by norm_num)
  rcases le_or_lt 0 q with hq | hq
  · have habsq : |q| = q := abs_of_nonneg hq
    rw [habsq] at h1 h2
    have hx1 : (10 : ℚ) ^ d ≤ q * (10 : ℚ) ^ d := by nlinarith
    have hx2 : q * (10 : ℚ) ^ d < 10 * (10 : ℚ) ^ d := by nlinarith
    have hn0 : 0 ≤ roundHalfEven (q * (10 : ℚ) ^ d) :=
      roundHalfEven_nonneg (by positivity)
    have hnabs : |(roundHalfEven (q * (10 : ℚ) ^ d) : ℚ)| =
        (roundHalfEven (q * (10 : ℚ) ^ d) : ℚ) :=
      abs_of_nonneg (by exact_mod_cast hn0)
    rw [hnabs]
    constructor
    · rw [le_div_iff hp, one_mul]
      have hgt : ((10 : ℚ) ^ d) - 1 < (roundHalfEven (q * (10 : ℚ) ^ d) : ℚ) := by
        linarith
      have hcast : (((10 ^ d : ℕ) : ℤ) : ℚ) = (10 : ℚ) ^ d := by push_cast; ring
      have hZ : ((10 ^ d : ℕ) : ℤ) - 1 < roundHalfEven (q * (10 : ℚ) ^ d) := by
        exact_mod_cast hcast ▸ hgt
      have : ((10 ^ d : ℕ) : ℤ) ≤ roundHalfEven (q * (10 : ℚ) ^ d) := by omega
      calc (10 : ℚ) ^ d = (((10 ^ d : ℕ) : ℤ) : ℚ) := hcast.symm
      _ ≤ (roundHalfEven (q * (10 : ℚ) ^ d) : ℚ) := by exact_mod_cast this
    · rw [div_le_iff hp]
      have hlt : (roundHalfEven (q * (10 : ℚ) ^ d) : ℚ) < 10 * (10 : ℚ) ^ d + 1 / 2 := by
        linarith
      have hcast : ((10 * 10 ^ d : ℕ) : ℤ) = 10 * ((10 ^ d : ℕ) : ℤ) := by push_cast; ring
      have hcast2 : ((10 * ((10 ^ d : ℕ) : ℤ)) : ℚ) = 10 * (10 : ℚ) ^ d := by push_cast; ring
      have hZ : roundHalfEven (q * (10 : ℚ) ^ d) < 10 * ((10 ^ d : ℕ) : ℤ) + 1 := by
        have : (roundHalfEven (q * (10 : ℚ) ^ d) : ℚ) <
            ((10 * ((10 ^ d : ℕ) : ℤ) + 1 : ℤ) : ℚ) := by
          push_cast
          push_cast at hcast2
          linarith [hcast2]
        exact_mod_cast this
      have hZ2 : roundHalfEven (q * (10 : ℚ) ^ d) ≤ 10 * ((10 ^ d : ℕ) : ℤ) := by omega
      calc (roundHalfEven (q * (10 : ℚ) ^ d) : ℚ) ≤ ((10 * ((10 ^ d : ℕ) : ℤ) : ℤ) : ℚ) := by
            exact_mod_cast hZ2
      _ = 10 * (10 : ℚ) ^ d := by push_cast; ring
  · have habsq : |q| = -q := abs_of_neg hq
    rw [habsq] at h1 h2
    have hx1 : q * (10 : ℚ) ^ d ≤ -((10 : ℚ) ^ d) := by nlinarith
    have hx2 : -(10 * (10 : ℚ) ^ d) < q * (10 : ℚ) ^ d := by nlinarith
    have hn0 : roundHalfEven (q * (10 : ℚ) ^ d) ≤ 0 :=
      roundHalfEven_nonpos (by nlinarith)
    have hnabs : |(roundHalfEven (q * (10 : ℚ) ^ d) : ℚ)| =
        -(roundHalfEven (q * (10 : ℚ) ^ d) : ℚ) :=
      abs_of_nonpos (by exact_mod_cast hn0)
    rw [hnabs]
    constructor
    · rw [le_div_iff hp, one_mul]
      have hgt : (roundHalfEven (q * (10 : ℚ) ^ d) : ℚ) < -((10 : ℚ) ^ d) + 1 := by
        linarith
      have hcast : ((-(10 ^ d : ℕ) : ℤ) : ℚ) = -((10 : ℚ) ^ d) := by push_cast; ring
      have hZ : roundHalfEven (q * (10 : ℚ) ^ d) < -((10 ^ d : ℕ) : ℤ) + 1 := by
        have : (roundHalfEven (q * (10 : ℚ) ^ d) : ℚ) <
            ((-((10 ^ d : ℕ) : ℤ) + 1 : ℤ) : ℚ) := by push_cast; push_cast at hcast; linarith
        exact_mod_cast this
      have hZ2 : roundHalfEven (q * (10 : ℚ) ^ d) ≤ -((10 ^ d : ℕ) : ℤ) := by omega
      have : (roundHalfEven (q * (10 : ℚ) ^ d) : ℚ) ≤ ((-((10 ^ d : ℕ) : ℤ) : ℤ) : ℚ) := by
        exact_mod_cast hZ2
      push_cast at this
      linarith
    · rw [div_le_iff hp]
      have hlt : -(10 * (10 : ℚ) ^ d) - 1 / 2 < (roundHalfEven (q * (10 : ℚ) ^ d) : ℚ) := by
        linarith
      have hZ : -(10 * ((10 ^ d : ℕ) : ℤ)) - 1 < roundHalfEven (q * (10 : ℚ) ^ d) := by
        have : ((-(10 * ((10 ^ d : ℕ) : ℤ)) - 1 : ℤ) : ℚ) <
            (roundHalfEven (q * (10 : ℚ) ^ d) : ℚ) := by push_cast; linarith
        exact_mod_cast this
      have hZ2 : -(10 * ((10 ^ d : ℕ) : ℤ)) ≤ roundHalfEven (q * (10 : ℚ) ^ d) := by omega
      have : ((-(10 * ((10 ^ d : ℕ) : ℤ)) : ℤ) : ℚ) ≤ (roundHalfEven (q * (10 : ℚ) ^ d) : ℚ) := by
        exact_mod_cast hZ2
      push_cast at this
      linarith

/-! ### Reading back the leading float of a formatted stem -/

theorem leadingFloat_clean {A : List Char} (hA : allC numC A = true) (hne : A ≠ []) :
    leadingFloat A = parseFloatChars A := by
  obtain ⟨c, rest, hcr, hc⟩ := exists_head_of_allC hA hne
  have hcp : (c == '(') = false := by
    simp only [beq_eq_false_iff_ne]
    intro h
    rw [h] at hc
    exact absurd hc (by decide)
  unfold leadingFloat
  rw [hcr, dropWhileC_head_stop (fun y => y == '(') c rest hcp, ← hcr, takeWhileC_all hA]

theorem leadingFloat_stop {A : List Char} (x : Char) (tail : List Char)
    (hA : allC numC A = true) (hne : A ≠ []) (hx : numC x = false) :
    leadingFloat (A ++ x :: tail) = parseFloatChars A := by
  obtain ⟨c, rest, hcr, hc⟩ := exists_head_of_allC hA hne
  have hcp : (c == '(') = false := by
    simp only [beq_eq_false_iff_ne]
    intro h
    rw [h] at hc
    exact absurd hc (by decide)
  unfold leadingFloat
  rw [hcr, List.cons_append, dropWhileC_head_stop (fun y => y == '(') c (rest ++ x :: tail) hcp,
    ← List.cons_append, ← hcr, takeWhileC_append_stop tail hA hx]

theorem leadingFloat_paren {A : List Char} (x : Char) (tail : List Char)
    (hA : allC numC A = true) (hne : A ≠ []) (hx : numC x = false) :
    leadingFloat ('(' :: (A ++ x :: tail)) = parseFloatChars A := by
  obtain ⟨c, rest, hcr, hc⟩ := exists_head_of_allC hA hne
  have hcp : (c == '(') = false := by
    simp only [beq_eq_false_iff_ne]
    intro h
    rw [h] at hc
    exact absurd hc (by decide)
  unfold leadingFloat
  have h1 : dropWhileC (fun y => y == '(') ('(' :: (A ++ x :: tail)) =
      dropWhileC (fun y => y == '(') (A ++ x :: tail) := by
    simp [dropWhileC]
  rw [h1, hcr, List.cons_append,
    dropWhileC_head_stop (fun y => y == '(') c (rest ++ x :: tail) hcp,
    ← List.cons_append, ← hcr, takeWhileC_append_stop tail hA hx]

theorem renderFree_eq_fixed (q : ℚ) (f : Bool) :
    ∃ K, renderFree q f = renderFixed q K f := by
  unfold renderFree
  split_ifs <;> exact ⟨_, rfl⟩

theorem leadingFloat_renderFree_bounds {q : ℚ} (f : Bool) (h1 : 1 ≤ |q|) (h2 : |q| < 10) :
    ∃ m, leadingFloat (renderFree q f) = some m ∧ 1 ≤ |m| ∧ |m| ≤ 10 := by
  obtain ⟨K, hK⟩ := renderFree_eq_fixed q f
  refine ⟨_, ?_, (rounded_mantissa_bounds K h1 h2).1, (rounded_mantissa_bounds K h1 h2).2⟩
  rw [leadingFloat_clean (renderFree_allNum _ _) (renderFree_ne_nil _ _), hK,
    parseFloat_renderFixed]

theorem formatBody_base_leading (rec : Uncertain → List Char → Except FormatError (List Char))
    {v : Uncertain} {spec out : List Char}
    (hm : v.mean ≠ 0) (hu0 : 0 ≤ v.uncertainty) (hu : v.uncertainty ≠ 0)
    (he : ¬ 1 ≤ |intLog10 v.mean|)
    (hok : formatBody rec v spec = .ok out) :
    ∃ m, leadingFloat out = some m ∧ 1 ≤ |m| ∧ |m| ≤ 10 := by
  have he0 : intLog10 v.mean = 0 := not_one_le_abs_iff.mp he
  have hmb := intLog10_eq_zero_bounds hm he0
  have hfix : ∀ (K : ℕ) (f : Bool),
      ∃ m, parseFloatChars (renderFixed v.mean K f) = some m ∧ 1 ≤ |m| ∧ |m| ≤ 10 :=
    fun K f => ⟨_, parseFloat_renderFixed v.mean K f,
      (rounded_mantissa_bounds K hmb.1 hmb.2).1, (rounded_mantissa_bounds K hmb.1 hmb.2).2⟩
  have hfree : ∀ (f : Bool),
      ∃ m, parseFloatChars (renderFree v.mean f) = some m ∧ 1 ≤ |m| ∧ |m| ≤ 10 := by
    intro f
    obtain ⟨K, hK⟩ := renderFree_eq_fixed v.mean f
    rw [hK]
    exact hfix K f
  cases hp : extractPrec spec with
  | error err =>
    rw [formatBody_precError rec hm hu he hp] at hok
    cases hok
  | ok fprec =>
    by_cases hdom : |v.mean| ≤ |v.uncertainty|
    · by_cases hfp : fprec = 0
      · subst hfp
        rw [formatBody_dom_free rec hm hu he hp hdom] at hok
        injection hok with hout
        subst hout
        simp only [List.cons_append, List.append_assoc, List.nil_append]
        rw [leadingFloat_paren ' ' _ (renderFree_allNum _ _) (renderFree_ne_nil _ _)
          (by decide)]
        exact hfree _
      · rw [formatBody_dom_fixed rec hm hu he hp hfp hdom] at hok
        injection hok with hout
        subst hout
        simp only [List.cons_append, List.append_assoc, List.nil_append]
        rw [leadingFloat_paren ' ' _ (renderFixed_allNum _ _ _) (renderFixed_ne_nil _ _ _)
          (by decide)]
        exact hfix _ _
    · have hneg : ¬ v.uncertainty < 0 := not_lt.mpr hu0
      cases hU : extractU spec with
      | error err =>
        rw [formatBody_uError rec hm hu he hp hdom hneg hU] at hok
        cases hok
      | ok M =>
        by_cases hfp : fprec = 0
        · subst hfp
          have hupos : 0 < v.uncertainty := lt_of_le_of_ne hu0 (Ne.symm hu)
          have hd := digits_nonneg hm he hupos hdom M
          rw [formatBody_digits_ceil rec hm hu he hp hdom hneg hU hd] at hok
          injection hok with hout
          subst hout
          simp only [List.cons_append, List.append_assoc, List.nil_append]
          rw [leadingFloat_stop '(' _ (renderFixed_allNum _ _ _) (renderFixed_ne_nil _ _ _)
            (by decide)]
          exact hfix _ _
        · by_cases hM : M = 0
          · subst hM
            rw [formatBody_digits_floor rec hm hu he hp hfp hdom hneg hU] at hok
            injection hok with hout
            subst hout
            simp only [List.cons_append, List.append_assoc, List.nil_append]
            rw [leadingFloat_stop '(' _ (renderFixed_allNum _ _ _) (renderFixed_ne_nil _ _ _)
              (by decide)]
            exact hfix _ _
          · rw [formatBody_bothError rec hm hu he hp hfp hdom hneg hU hM] at hok
            cases hok

/-- Counterexample to claim C5 as stated: for `Uncertain(99.96, 5)` with the
default spec, `|mean| ≥ 10` and the exponent suffix is `10^+1` as claimed,
but the rendered mantissa rounds up to `10.00`, whose absolute value is not
in `[1, 10)` — the source normalizes before rounding, so rounding can push
the displayed mantissa to exactly `10`. -/
theorem C5_counterexample :
    (10 : ℚ) ≤ |(Uncertain.make (2499/25) 5).mean| ∧
    Uncertain.format (Uncertain.make (2499/25) 5) "" = .ok "+10.00(50) × 10^+1" ∧
    intLog10 (Uncertain.make (2499/25) 5).mean = 1 ∧
    ("+10.00(50) × 10^+1" : String).data =
      ("+10.00(50)" : String).data ++ expChars 1 false ∧
    leadingFloat ("+10.00(50)" : String).data = some 10 ∧
    ¬ |(10 : ℚ)| < 10 := by
  refine ⟨by decide, by decide, by decide, by decide, by decide, ?_⟩
  rw [abs_of_nonneg (by norm_num : (0 : ℚ) ≤ 10)]
  exact lt_irrefl 10

/-- Claim C5 (amended): for `|mean| ≥ 10` and constructor-nonnegative
uncertainty, every successful `format` output splits as a stem followed by
the exponent suffix for `⌊log₁₀ |mean|⌋ ≥ 1`, and the float rendered at the
head of the stem — the displayed mantissa — has absolute value in the
closed interval `[1, 10]`: the upper end is reachable (see the
counterexample), so `[1, 10)` must be weakened to `[1, 10]`. -/
theorem C5_amended (v : Uncertain) (s : String) (out : String)
    (hmean : (10 : ℚ) ≤ |v.mean|) (hu0 : 0 ≤ v.uncertainty)
    (hok : Uncertain.format v s = .ok out) :
    1 ≤ intLog10 v.mean ∧
    ∃ stem m, out.data = stem ++ expChars (intLog10 v.mean) (hasChar 'e' s.data) ∧
      leadingFloat stem = some m ∧ 1 ≤ |m| ∧ |m| ≤ 10 := by
  have hm : v.mean ≠ 0 := by
    intro h
    rw [h, abs_zero] at hmean
    linarith
  have he1 : 1 ≤ intLog10 v.mean := intLog10_ge_one hmean
  have he : 1 ≤ |intLog10 v.mean| := by
    rw [abs_of_nonneg (by omega : (0 : ℤ) ≤ intLog10 v.mean)]
    exact he1
  have h2 := format_ok_elim hok
  by_cases huz : v.uncertainty = 0
  · rw [formatFuel_succ, formatBody_zeroUnc _ _ hm huz] at h2
    injection h2 with h2
    have hmant_ne : v.mean / (10 : ℚ) ^ intLog10 v.mean ≠ 0 :=
      div_ne_zero hm (by positivity)
    have hmz : intLog10 (v.mean / (10 : ℚ) ^ intLog10 v.mean) = 0 :=
      intLog10_mantissa_zero hm
    have hmb := intLog10_eq_zero_bounds hmant_ne hmz
    obtain ⟨m, hl, hb1, hb2⟩ := leadingFloat_renderFree_bounds
      (hasChar '+' s.data || s.data.isEmpty) hmb.1 hmb.2
    exact ⟨he1, _, m, h2.symm, hl, hb1, hb2⟩
  · rw [formatFuel_succ, formatBody_rec _ _ hm huz he] at h2
    cases hstem : formatFuel 1 (Uncertain.normalize v) s.data with
    | error err =>
      rw [hstem] at h2
      dsimp only at h2
      cases h2
    | ok stem =>
      rw [hstem] at h2
      dsimp only at h2
      injection h2 with h2
      rw [formatFuel_succ] at hstem
      obtain ⟨m, hl, hb1, hb2⟩ := formatBody_base_leading (formatFuel 0)
        (normalize_mean_ne hm) (normalize_unc_nonneg v) (normalize_unc_ne hu0 huz)
        (by rw [normalize_log hm]; decide) hstem
      exact ⟨he1, stem, m, h2.symm, hl, hb1, hb2⟩

/-- Witness for the amended C5: the W boson mass `Uncertain(80.379, 0.012)`
with the default spec renders as `+8.0379(12) × 10^+1`, whose exponent is
`⌊log₁₀ 80.379⌋ = 1` and whose mantissa `8.0379` lies in `[1, 10]`. -/
theorem C5_witness :
    ((10 : ℚ) ≤ |(Uncertain.make (80379/1000) (12/1000)).mean| ∧
      Uncertain.format (Uncertain.make (80379/1000) (12/1000)) "" =
        .ok "+8.0379(12) × 10^+1") ∧
    (1 ≤ intLog10 (Uncertain.make (80379/1000) (12/1000)).mean ∧
      ∃ stem m, ("+8.0379(12) × 10^+1" : String).data =
          stem ++ expChars (intLog10 (Uncertain.make (80379/1000) (12/1000)).mean)
            (hasChar 'e' ("" : String).data) ∧
        leadingFloat stem = some m ∧ 1 ≤ |m| ∧ |m| ≤ 10) :=
  ⟨⟨by decide, by decide⟩,
    C5_amended (Uncertain.make (80379/1000) (12/1000)) "" "+8.0379(12) × 10^+1"
      (by decide) (by decide) (by decide)⟩

/-! ### Dialect selection in the parser -/

theorem fromStringBody_times_dialect (rec : List Char → Except ParseError Uncertain)
    {l : List Char} (hE : hasChar 'E' l = false) (hX : hasChar '×' l = true) :
    fromStringBody rec l = (match splitOnChar '×' l with
    | [mant, rest] =>
      match splitOnChar '^' rest with
      | _ :: ex :: _ =>
        match parseIntChars ex with
        | none => .error .badNumber
        | some z =>
          match rec mant with
          | .error e => .error e
          | .ok u => .ok (Uncertain.make (u.mean * (10 : ℚ) ^ z)
              (u.uncertainty * (10 : ℚ) ^ z))
      | _ => .error .badSplit
    | _ => .error .badSplit) := by
  unfold fromStringBody
  rw [if_neg (by rw [hE]; exact Bool.false_ne_true), if_pos hX]

theorem fromStringBody_pm_dialect (rec : List Char → Except ParseError Uncertain)
    {l : List Char} (hE : hasChar 'E' l = false) (hX : hasChar '×' l = false)
    (hne : l ≠ []) (hhead : l.head? = some '(' ∧ l.getLast? = some ')') :
    fromStringBody rec l = (match splitOnChar '±' ((l.drop 1).dropLast) with
    | [m, u] =>
      match parseFloatChars m, parseFloatChars u with
      | some qm, some qu => .ok (Uncertain.make qm qu)
      | _, _ => .error .badNumber
    | _ => .error .badSplit) := by
  unfold fromStringBody
  rw [if_neg (by rw [hE]; exact Bool.false_ne_true),
    if_neg (by rw [hX]; exact Bool.false_ne_true), if_neg hne, if_pos hhead]

theorem fromStringBody_paren_dialect (rec : List Char → Except ParseError Uncertain)
    {l : List Char} (hE : hasChar 'E' l = false) (hX : hasChar '×' l = false)
    (hne : l ≠ []) (hhead : ¬ (l.head? = some '(' ∧ l.getLast? = some ')')) :
    fromStringBody rec l = (match splitOnChar '(' l with
    | [m, rest] =>
      match splitOnChar '.' m with
      | _ :: frac :: _ =>
        match parseFloatChars m, parseFloatChars ((splitOnChar ')' rest).headD []) with
        | some qm, some qu =>
          .ok (Uncertain.make qm (qu * (10 : ℚ) ^ (-(frac.length : ℤ))))
        | _, _ => .error .badNumber
      | _ => .error .noDecimalPoint
    | _ => .error .badSplit) := by
  unfold fromStringBody
  rw [if_neg (by rw [hE]; exact Bool.false_ne_true),
    if_neg (by rw [hX]; exact Bool.false_ne_true), if_neg hne, if_neg hhead]

/-! ### Small character and numeral helpers for the round trip -/

theorem not_isDig_of_not_numC {c : Char} (h : numC c = false) : isDig c = false := by
  cases hd : isDig c
  · rfl
  · unfold numC at h
    rw [hd] at h
    simp at h

theorem hasChar_cons_ne {x c : Char} (l : List Char) (hx : x ≠ c) :
    hasChar c (x :: l) = hasChar c l := by
  simp only [hasChar]
  rw [if_neg hx]

theorem parseFloatChars_congr_strip {a b : List Char} (h : stripSp a = stripSp b) :
    parseFloatChars a = parseFloatChars b := by
  unfold parseFloatChars
  rw [h]

theorem parseUFrac_digitRun {l : List Char} (h : allDigs l = true) (hne : l ≠ []) :
    parseUFrac l = some (digitsVal l : ℚ) := by
  unfold parseUFrac
  rw [splitOnChar_of_not_has
    (hasChar_false_of_allC (by decide) (allDigs_eq_allC l ▸ h))]
  simp only []
  rw [if_pos ⟨hne, h⟩]

theorem parseFloat_digitRun {l : List Char} (h : allDigs l = true) (hne : l ≠ []) :
    parseFloatChars l = some (digitsVal l : ℚ) := by
  have hC : allC isDig l = true := allDigs_eq_allC l ▸ h
  have hstrip : stripSp l = l :=
    stripSp_of_clean (hasChar_false_of_allC (by decide) hC)
  obtain ⟨c, cs, hcc, hc⟩ := exists_head_of_allC hC hne
  have hsign : splitSign l = (false, l) := by
    rw [hcc]
    exact splitSign_of_head_dig cs hc
  have hexp : splitAtExp l = (l, none) :=
    splitAtExp_of_no_e (hasChar_false_of_allC (by decide) hC)
      (hasChar_false_of_allC (by decide) hC)
  have h2 := parseFloatChars_core hstrip hsign hexp (parseUFrac_digitRun h hne)
  simpa using h2

theorem parseFloat_intChars {z : ℤ} (hz : 0 ≤ z) :
    parseFloatChars (intChars z) = some (z : ℚ) := by
  unfold intChars
  rw [if_neg (not_lt.mpr hz),
    parseFloat_digitRun (allDigs_natChars z.natAbs) (natChars_ne_nil z.natAbs),
    digitsVal_natChars]
  congr 1
  lift z to ℕ using hz with n
  simp

theorem round_scaled_bound (q : ℚ) {P : ℚ} (hP : 0 < P) {E : ℚ} (hE : 0 < E) :
    |(roundHalfEven (q * P) : ℚ) / P * E - q * E| ≤ 1 / 2 * (E / P) := by
  have hb := roundHalfEven_le (q * P)
  have hb2 := le_roundHalfEven (q * P)
  have hrw : (roundHalfEven (q * P) : ℚ) / P * E - q * E =
      ((roundHalfEven (q * P) : ℚ) - q * P) * (E / P) := by
    field_simp
    ring
  rw [hrw, abs_mul, abs_of_pos (by positivity : (0 : ℚ) < E / P)]
  have hhalf : |(roundHalfEven (q * P) : ℚ) - q * P| ≤ 1 / 2 := by
    rw [abs_le]
    constructor <;> linarith
  exact mul_le_mul_of_nonneg_right hhalf (by positivity)

theorem ceil_scaled_bounds (u : ℚ) {P : ℚ} (hP : 0 < P) {E : ℚ} (hE : 0 < E) :
    0 ≤ (⌈u * P⌉ : ℚ) / P * E - u * E ∧
    (⌈u * P⌉ : ℚ) / P * E - u * E < E / P := by
  have h1 := Int.le_ceil (u * P)
  have h2 := Int.ceil_lt_add_one (u * P)
  constructor
  · have h3 : u ≤ (⌈u * P⌉ : ℚ) / P := by
      rw [le_div_iff hP]
      exact h1
    nlinarith
  · have h3 : (⌈u * P⌉ : ℚ) / P < u + 1 / P := by
      rw [div_lt_iff hP]
      have h4 : (u + 1 / P) * P = u * P + 1 := by field_simp
      rw [h4]
      exact h2
    calc (⌈u * P⌉ : ℚ) / P * E - u * E = ((⌈u * P⌉ : ℚ) / P - u) * E := by ring
    _ < 1 / P * E := by
        apply mul_lt_mul_of_pos_right _ hE
        linarith
    _ = E / P := by ring

theorem renderFixed_dot (q : ℚ) (D : ℕ) (hD : D ≠ 0) (f : Bool) :
    renderFixed q D f =
      ((if q < 0 then ['-'] else if f then ['+'] else ([] : List Char)) ++
        natChars ((roundHalfEven (q * (10 : ℚ) ^ D)).natAbs / 10 ^ D)) ++
      '.' :: padZeros D (natChars ((roundHalfEven (q * (10 : ℚ) ^ D)).natAbs % 10 ^ D)) := by
  unfold renderFixed
  dsimp only
  rw [if_neg hD]

theorem renderFixed_pre_no_dot (q : ℚ) (D : ℕ) (f : Bool) :
    hasChar '.' ((if q < 0 then ['-'] else if f then ['+'] else ([] : List Char)) ++
      natChars ((roundHalfEven (q * (10 : ℚ) ^ D)).natAbs / 10 ^ D)) = false := by
  rw [hasChar_eq_false_iff]
  intro hmem
  simp only [List.mem_append] at hmem
  rcases hmem with h | h
  · split_ifs at h <;> exact absurd h (by decide)
  · exact not_mem_of_allC (allC_natChars _) (by decide) h

theorem fromStringBody_digits (rec : List Char → Except ParseError Uncertain)
    (q : ℚ) (D : ℕ) (hD : D ≠ 0) (f : Bool) {ind T : List Char}
    (hind : allDigs ind = true) (hindne : ind ≠ [])
    (hTE : hasChar 'E' T = false) (hTX : hasChar '×' T = false)
    (hTpar : hasChar '(' T = false) (hTrp : hasChar ')' T = false) :
    fromStringBody rec (renderFixed q D f ++ '(' :: (ind ++ ')' :: T)) =
      .ok (Uncertain.make ((roundHalfEven (q * (10 : ℚ) ^ D) : ℚ) / (10 : ℚ) ^ D)
        ((digitsVal ind : ℚ) * (10 : ℚ) ^ (-(D : ℤ)))) := by
  have hindC : allC isDig ind = true := allDigs_eq_allC ind ▸ hind
  obtain ⟨c, rest0, hcr, hc⟩ := exists_head_of_allC (renderFixed_allNum q D f)
    (renderFixed_ne_nil q D f)
  have hE : hasChar 'E' (renderFixed q D f ++ '(' :: (ind ++ ')' :: T)) = false := by
    rw [hasChar_eq_false_iff]
    intro hmem
    simp only [List.mem_append, List.mem_cons] at hmem
    rcases hmem with h | h | h | h | h
    · exact not_mem_of_allC (renderFixed_allNum q D f) (by decide) h
    · exact absurd h (by decide)
    · exact not_mem_of_allC hindC (by decide) h
    · exact absurd h (by decide)
    · exact (hasChar_eq_false_iff _ _).mp hTE h
  have hX : hasChar '×' (renderFixed q D f ++ '(' :: (ind ++ ')' :: T)) = false := by
    rw [hasChar_eq_false_iff]
    intro hmem
    simp only [List.mem_append, List.mem_cons] at hmem
    rcases hmem with h | h | h | h | h
    · exact not_mem_of_allC (renderFixed_allNum q D f) (by decide) h
    · exact absurd h (by decide)
    · exact not_mem_of_allC hindC (by decide) h
    · exact absurd h (by decide)
    · exact (hasChar_eq_false_iff _ _).mp hTX h
  have hne : renderFixed q D f ++ '(' :: (ind ++ ')' :: T) ≠ [] := by
    intro h
    exact renderFixed_ne_nil q D f (List.append_eq_nil.mp h).1
  have hhead : (renderFixed q D f ++ '(' :: (ind ++ ')' :: T)).head? = some c := by
    rw [head_of_append_ne_nil (renderFixed_ne_nil q D f), hcr]
    rfl
  have hnp : ¬ ((renderFixed q D f ++ '(' :: (ind ++ ')' :: T)).head? = some '(' ∧
      (renderFixed q D f ++ '(' :: (ind ++ ')' :: T)).getLast? = some ')') := by
    intro hcon
    rw [hhead] at hcon
    injection hcon.1 with h1
    rw [h1] at hc
    exact absurd hc (by decide)
  rw [fromStringBody_paren_dialect rec hE hX hne hnp]
  have hsplit : splitOnChar '(' (renderFixed q D f ++ '(' :: (ind ++ ')' :: T)) =
      [renderFixed q D f, ind ++ ')' :: T] := by
    rw [splitOnChar_append (hasChar_false_of_allC (by decide) (renderFixed_allNum q D f)),
      splitOnChar_of_not_has ?noparen]
    case noparen =>
      rw [hasChar_eq_false_iff]
      intro hmem
      simp only [List.mem_append, List.mem_cons] at hmem
      rcases hmem with h | h | h
      · exact not_mem_of_allC hindC (by decide) h
      · exact absurd h (by decide)
      · exact (hasChar_eq_false_iff _ _).mp hTpar h
  rw [hsplit]
  simp only []
  have hdot : splitOnChar '.' (renderFixed q D f) =
      [(if q < 0 then ['-'] else if f then ['+'] else ([] : List Char)) ++
        natChars ((roundHalfEven (q * (10 : ℚ) ^ D)).natAbs / 10 ^ D),
       padZeros D (natChars ((roundHalfEven (q * (10 : ℚ) ^ D)).natAbs % 10 ^ D))] := by
    rw [renderFixed_dot q D hD f, splitOnChar_append (renderFixed_pre_no_dot q D f),
      splitOnChar_of_not_has (hasChar_false_of_allC (by decide) (allC_isDig_padZeros D _))]
  rw [hdot]
  simp only []
  rw [parseFloat_renderFixed q D f]
  have hrsplit : splitOnChar ')' (ind ++ ')' :: T) = ind :: splitOnChar ')' T :=
    splitOnChar_append (hasChar_false_of_allC (by decide) hindC)
  rw [hrsplit]
  simp only [List.headD_cons]
  rw [parseFloat_digitRun hind hindne]
  simp only []
  rw [padZeros_length (natChars_len_le (by omega)
    (Nat.mod_lt _ (pow_pos (by norm_num) D)))]

theorem fromStringBody_pm (rec : List Char → Except ParseError Uncertain)
    {A B : List Char} {qm qu : ℚ}
    (hA : allC numC A = true) (hB : allC numC B = true)
    (hAp : parseFloatChars A = some qm) (hBp : parseFloatChars B = some qu) :
    fromStringBody rec ('(' :: (A ++ ' ' :: '±' :: ' ' :: (B ++ [')']))) =
      .ok (Uncertain.make qm qu) := by
  have hE : hasChar 'E' ('(' :: (A ++ ' ' :: '±' :: ' ' :: (B ++ [')']))) = false := by
    rw [hasChar_eq_false_iff]
    intro hmem
    simp only [List.mem_cons, List.mem_append, List.not_mem_nil, or_false] at hmem
    rcases hmem with h | h | h | h | h | h | h
    · exact absurd h (by decide)
    · exact not_mem_of_allC hA (by decide) h
    · exact absurd h (by decide)
    · exact absurd h (by decide)
    · exact absurd h (by decide)
    · exact not_mem_of_allC hB (by decide) h
    · exact absurd h (by decide)
  have hX : hasChar '×' ('(' :: (A ++ ' ' :: '±' :: ' ' :: (B ++ [')']))) = false := by
    rw [hasChar_eq_false_iff]
    intro hmem
    simp only [List.mem_cons, List.mem_append, List.not_mem_nil, or_false] at hmem
    rcases hmem with h | h | h | h | h | h | h
    · exact absurd h (by decide)
    · exact not_mem_of_allC hA (by decide) h
    · exact absurd h (by decide)
    · exact absurd h (by decide)
    · exact absurd h (by decide)
    · exact not_mem_of_allC hB (by decide) h
    · exact absurd h (by decide)
  have hl2 : '(' :: (A ++ ' ' :: '±' :: ' ' :: (B ++ [')'])) =
      ('(' :: (A ++ ' ' :: '±' :: ' ' :: B)) ++ [')'] := by simp
  have hlast : ('(' :: (A ++ ' ' :: '±' :: ' ' :: (B ++ [')']))).getLast? = some ')' := by
    rw [hl2]
    exact List.getLast?_concat _
  rw [fromStringBody_pm_dialect rec hE hX (List.cons_ne_nil _ _) ⟨rfl, hlast⟩]
  have hdrop : (('(' :: (A ++ ' ' :: '±' :: ' ' :: (B ++ [')']))).drop 1).dropLast =
      A ++ ' ' :: '±' :: ' ' :: B := by
    show (A ++ ' ' :: '±' :: ' ' :: (B ++ [')'])).dropLast = A ++ ' ' :: '±' :: ' ' :: B
    have h3 : A ++ ' ' :: '±' :: ' ' :: (B ++ [')']) =
        (A ++ ' ' :: '±' :: ' ' :: B) ++ [')'] := by simp
    rw [h3]
    exact List.dropLast_concat
  rw [hdrop]
  have hAsp : hasChar ' ' A = false := hasChar_false_of_allC (by decide) hA
  have hBsp : hasChar ' ' B = false := hasChar_false_of_allC (by decide) hB
  have hsplit : splitOnChar '±' (A ++ ' ' :: '±' :: ' ' :: B) = [A ++ [' '], ' ' :: B] := by
    have h3 : A ++ ' ' :: '±' :: ' ' :: B = (A ++ [' ']) ++ '±' :: (' ' :: B) := by simp
    rw [h3, splitOnChar_append ?hpm, splitOnChar_of_not_has ?hpm2]
    case hpm =>
      rw [hasChar_eq_false_iff]
      intro hmem
      simp only [List.mem_append, List.mem_cons, List.not_mem_nil, or_false] at hmem
      rcases hmem with h | h
      · exact not_mem_of_allC hA (by decide) h
      · exact absurd h (by decide)
    case hpm2 =>
      rw [hasChar_cons_ne _ (by decide)]
      exact hasChar_false_of_allC (by decide) hB
  rw [hsplit]
  simp only []
  have hf1 : parseFloatChars (A ++ [' ']) = parseFloatChars A :=
    parseFloatChars_congr_strip (by rw [stripSp_trailing hAsp, stripSp_of_clean hAsp])
  have hf2 : parseFloatChars (' ' :: B) = parseFloatChars B :=
    parseFloatChars_congr_strip (stripSp_leading B)
  rw [hf1, hAp, hf2, hBp]

theorem natAbs_cast_q {z : ℤ} (hz : 0 ≤ z) : ((z.natAbs : ℕ) : ℚ) = (z : ℚ) := by
  lift z to ℕ using hz with n
  simp

theorem digits_roundtrip (rec : Uncertain → List Char → Except FormatError (List Char))
    {w : Uncertain} {T : List Char}
    (hm : w.mean ≠ 0) (hu : 0 < w.uncertainty)
    (he0 : intLog10 w.mean = 0) (hdom : w.uncertainty < |w.mean|)
    (hTE : hasChar 'E' T = false) (hTX : hasChar '×' T = false)
    (hTpar : hasChar '(' T = false) (hTrp : hasChar ')' T = false) :
    ∃ stem qm qu,
      formatBody rec w ("+u2" : String).data = .ok stem ∧
      (∀ rec2 : List Char → Except ParseError Uncertain,
        fromStringBody rec2 (stem ++ T) = .ok (Uncertain.make qm qu)) ∧
      hasChar 'E' stem = false ∧
      hasChar '×' stem = false ∧
      0 ≤ qu ∧
      |qm - w.mean| ≤ 1 / 2 * (10 : ℚ) ^ (-(-intLog10 w.uncertainty + 1)) ∧
      0 ≤ qu - w.uncertainty ∧
      qu - w.uncertainty < (10 : ℚ) ^ (-(-intLog10 w.uncertainty + 1)) := by
  have hune : w.uncertainty ≠ 0 := ne_of_gt hu
  have he : ¬ 1 ≤ |intLog10 w.mean| := by rw [he0]; decide
  have hdom' : ¬ |w.mean| ≤ |w.uncertainty| := by
    rw [abs_of_pos hu]
    exact not_le.mpr hdom
  have husm : |w.uncertainty| < 10 := by
    have hb := intLog10_eq_zero_bounds hm he0
    calc |w.uncertainty| = w.uncertainty := abs_of_pos hu
    _ < |w.mean| := hdom
    _ < 10 := hb.2
  have hprec : intLog10 w.uncertainty ≤ 0 := intLog10_nonpos hune husm
  have hdzpos : 0 < -intLog10 w.uncertainty + 1 := by omega
  have hDz : (((-intLog10 w.uncertainty + 1).toNat : ℕ) : ℤ) = -intLog10 w.uncertainty + 1 :=
    Int.toNat_of_nonneg hdzpos.le
  have hD0 : (-intLog10 w.uncertainty + 1).toNat ≠ 0 := by omega
  have hfs : (hasChar '+' ("+u2" : String).data || ("+u2" : String).data.isEmpty) = true := by
    decide
  have hif : (if (2 : ℕ) ≠ 0 then ((2 : ℕ) : ℤ) - 1 else 1) = 1 := by norm_num
  have hU : extractU ("+u2" : String).data = .ok 2 := by decide
  have hp : extractPrec ("+u2" : String).data = .ok 0 := by decide
  have hout := formatBody_digits_ceil rec hm hune he hp hdom' (not_lt.mpr hu.le) hU
    (digits_nonneg hm he hu hdom' 2)
  rw [hfs, hif] at hout
  have hform : w.uncertainty / (10 : ℚ) ^ (-(-intLog10 w.uncertainty + 1)) =
      w.uncertainty * (10 : ℚ) ^ (-intLog10 w.uncertainty + 1) := by
    rw [zpow_neg, div_eq_mul_inv, inv_inv]
  rw [hform] at hout
  have hPzpos : (0 : ℚ) < (10 : ℚ) ^ (-intLog10 w.uncertainty + 1) :=
    zpow_pos (by norm_num) _
  have hIpos : 0 < ⌈w.uncertainty * (10 : ℚ) ^ (-intLog10 w.uncertainty + 1)⌉ :=
    Int.ceil_pos.mpr (mul_pos hu hPzpos)
  have hic : intChars ⌈w.uncertainty * (10 : ℚ) ^ (-intLog10 w.uncertainty + 1)⌉ =
      natChars (⌈w.uncertainty * (10 : ℚ) ^ (-intLog10 w.uncertainty + 1)⌉).natAbs := by
    unfold intChars
    rw [if_neg (not_lt.mpr hIpos.le)]
  rw [hic] at hout
  have hparse : ∀ rec2 : List Char → Except ParseError Uncertain,
      fromStringBody rec2 (renderFixed w.mean ((-intLog10 w.uncertainty + 1).toNat) true ++
        '(' :: (natChars ((⌈w.uncertainty *
          (10 : ℚ) ^ (-intLog10 w.uncertainty + 1)⌉).natAbs) ++ ')' :: T)) =
      .ok (Uncertain.make
        ((roundHalfEven (w.mean *
          (10 : ℚ) ^ ((-intLog10 w.uncertainty + 1).toNat : ℕ)) : ℚ) /
          (10 : ℚ) ^ ((-intLog10 w.uncertainty + 1).toNat : ℕ))
        (((digitsVal (natChars ((⌈w.uncertainty *
            (10 : ℚ) ^ (-intLog10 w.uncertainty + 1)⌉).natAbs)) : ℕ) : ℚ) *
          (10 : ℚ) ^ (-(((-intLog10 w.uncertainty + 1).toNat : ℕ) : ℤ)))) := by
    intro rec2
    exact fromStringBody_digits rec2 w.mean ((-intLog10 w.uncertainty + 1).toNat)
      hD0 true (allDigs_natChars ((⌈w.uncertainty *
        (10 : ℚ) ^ (-intLog10 w.uncertainty + 1)⌉).natAbs))
      (natChars_ne_nil _) hTE hTX hTpar hTrp
  simp only [digitsVal_natChars] at hparse
  have hstE : hasChar 'E' (renderFixed w.mean (-intLog10 w.uncertainty + 1).toNat true ++
      '(' :: natChars (⌈w.uncertainty *
        (10 : ℚ) ^ (-intLog10 w.uncertainty + 1)⌉).natAbs ++ [')']) = false := by
    rw [hasChar_eq_false_iff]
    intro hmem
    simp only [List.mem_append, List.mem_cons, List.not_mem_nil, or_false] at hmem
    rcases hmem with (h | h | h) | h
    · exact not_mem_of_allC (renderFixed_allNum _ _ _) (by decide) h
    · exact absurd h (by decide)
    · exact not_mem_of_allC (allC_natChars _) (by decide) h
    · exact absurd h (by decide)
  have hstX : hasChar '×' (renderFixed w.mean (-intLog10 w.uncertainty + 1).toNat true ++
      '(' :: natChars (⌈w.uncertainty *
        (10 : ℚ) ^ (-intLog10 w.uncertainty + 1)⌉).natAbs ++ [')']) = false := by
    rw [hasChar_eq_false_iff]
    intro hmem
    simp only [List.mem_append, List.mem_cons, List.not_mem_nil, or_false] at hmem
    rcases hmem with (h | h | h) | h
    · exact not_mem_of_allC (renderFixed_allNum _ _ _) (by decide) h
    · exact absurd h (by decide)
    · exact not_mem_of_allC (allC_natChars _) (by decide) h
    · exact absurd h (by decide)
  have hsh : (renderFixed w.mean (-intLog10 w.uncertainty + 1).toNat true ++
        '(' :: natChars (⌈w.uncertainty *
          (10 : ℚ) ^ (-intLog10 w.uncertainty + 1)⌉).natAbs ++ [')']) ++ T =
      renderFixed w.mean (-intLog10 w.uncertainty + 1).toNat true ++
        '(' :: (natChars (⌈w.uncertainty *
          (10 : ℚ) ^ (-intLog10 w.uncertainty + 1)⌉).natAbs ++ ')' :: T) := by
    simp
  have hICq : ((((⌈w.uncertainty *
      (10 : ℚ) ^ (-intLog10 w.uncertainty + 1)⌉).natAbs : ℕ)) : ℚ) =
      ((⌈w.uncertainty * (10 : ℚ) ^ (-intLog10 w.uncertainty + 1)⌉ : ℤ) : ℚ) :=
    natAbs_cast_q hIpos.le
  have h10D : (10 : ℚ) ^ (-(((-intLog10 w.uncertainty + 1).toNat : ℕ) : ℤ)) =
      ((10 : ℚ) ^ (-intLog10 w.uncertainty + 1))⁻¹ := by
    rw [zpow_neg, hDz]
  have hPD : (10 : ℚ) ^ (-intLog10 w.uncertainty + 1) =
      (10 : ℚ) ^ ((-intLog10 w.uncertainty + 1).toNat : ℕ) := by
    conv_rhs => rw [← zpow_natCast (10 : ℚ) (-intLog10 w.uncertainty + 1).toNat]
    rw [hDz]
  have hquval : ((((⌈w.uncertainty *
      (10 : ℚ) ^ (-intLog10 w.uncertainty + 1)⌉).natAbs : ℕ)) : ℚ) *
      (10 : ℚ) ^ (-(((-intLog10 w.uncertainty + 1).toNat : ℕ) : ℤ)) =
      ((⌈w.uncertainty * (10 : ℚ) ^ (-intLog10 w.uncertainty + 1)⌉ : ℤ) : ℚ) /
      (10 : ℚ) ^ (-intLog10 w.uncertainty + 1) := by
    rw [hICq, h10D, div_eq_mul_inv]
  have hcb := ceil_scaled_bounds w.uncertainty hPzpos (by norm_num : (0 : ℚ) < 1)
  simp only [mul_one] at hcb
  have hRinv : (10 : ℚ) ^ (-(-intLog10 w.uncertainty + 1)) =
      1 / (10 : ℚ) ^ (-intLog10 w.uncertainty + 1) := by
    rw [zpow_neg, one_div]
  have hPn : (0 : ℚ) < (10 : ℚ) ^ ((-intLog10 w.uncertainty + 1).toNat : ℕ) := by
    positivity
  have hmb := round_scaled_bound w.mean hPn (by norm_num : (0 : ℚ) < 1)
  simp only [mul_one] at hmb
  refine ⟨_, (roundHalfEven (w.mean *
      (10 : ℚ) ^ ((-intLog10 w.uncertainty + 1).toNat : ℕ)) : ℚ) /
      (10 : ℚ) ^ ((-intLog10 w.uncertainty + 1).toNat : ℕ),
    (((⌈w.uncertainty * (10 : ℚ) ^ (-intLog10 w.uncertainty + 1)⌉).natAbs : ℕ) : ℚ) *
      (10 : ℚ) ^ (-(((-intLog10 w.uncertainty + 1).toNat : ℕ) : ℤ)),
    hout, ?_, hstE, hstX, ?_, ?_, ?_, ?_⟩
  · intro rec2
    rw [hsh]
    exact hparse rec2
  · rw [hquval]
    exact div_nonneg (by exact_mod_cast hIpos.le) hPzpos.le
  · rw [hRinv]
    have hE2 : 1 / 2 * (1 / (10 : ℚ) ^ (-intLog10 w.uncertainty + 1)) =
        1 / 2 * (1 / (10 : ℚ) ^ ((-intLog10 w.uncertainty + 1).toNat : ℕ)) := by
      rw [hPD]
    rw [hE2]
    exact hmb
  · rw [hquval]
    exact hcb.1
  · rw [hquval, hRinv]
    exact hcb.2

/-- Counterexample to claim C3 as stated: for `Uncertain(1, 0)` the default
rendering is `"+1"` (no parenthetical, no decimal point, no exponent), and
`from_string` cannot parse it — the final dialect's `mean, uncertainty =
string.split('(')` unpacking fails because there is no `'('`.  The claim's
"for every UncertainValue" is false. -/
theorem C3_counterexample :
    Uncertain.toStr (Uncertain.make 1 0) = .ok "+1" ∧
    Uncertain.fromString "+1" = .error .badSplit :=
  ⟨by decide, by decide⟩

/-- Claim C3 (amended): the default-rendering round trip holds for values
with nonzero mean and strictly positive uncertainty, provided that in the
uncertainty-dominant case the stored rationals are decimal-finite (as every
float is) and the mean needs no exponent.  Then `parse (str v)` succeeds; in
the dominant case it returns `v` exactly, and in the parenthetical-digits
case it recovers the mean to within half an ulp of the displayed mantissa
and the uncertainty to within one unit of the displayed indicator — the
tolerance implied by the 2-digit uncertainty display, with
`digits = -⌊log₁₀(uncertainty/10^e)⌋ + 1` and `e = ⌊log₁₀ |mean|⌋`. -/
theorem C3_amended (v : Uncertain) (hm : v.mean ≠ 0) (hu : 0 < v.uncertainty)
    (hdomfin : |v.mean| ≤ v.uncertainty →
      decFiniteB v.mean = true ∧ decFiniteB v.uncertainty = true ∧ intLog10 v.mean = 0) :
    ∃ s w, Uncertain.toStr v = .ok s ∧ Uncertain.fromString s = .ok w ∧
      (|v.mean| ≤ v.uncertainty → w.mean = v.mean ∧ w.uncertainty = v.uncertainty) ∧
      (v.uncertainty < |v.mean| →
        |w.mean - v.mean| ≤ 1 / 2 * (10 : ℚ) ^ (intLog10 v.mean -
          (-intLog10 (v.uncertainty / (10 : ℚ) ^ intLog10 v.mean) + 1)) ∧
        0 ≤ w.uncertainty - v.uncertainty ∧
        w.uncertainty - v.uncertainty < (10 : ℚ) ^ (intLog10 v.mean -
          (-intLog10 (v.uncertainty / (10 : ℚ) ^ intLog10 v.mean) + 1))) := by
  have hune : v.uncertainty ≠ 0 := ne_of_gt hu
  by_cases hdom : |v.mean| ≤ v.uncertainty
  · obtain ⟨hfm, hfu, he0⟩ := hdomfin hdom
    have he : ¬ 1 ≤ |intLog10 v.mean| := by rw [he0]; decide
    have hdom' : |v.mean| ≤ |v.uncertainty| := by
      rw [abs_of_pos hu]
      exact hdom
    have hp : extractPrec ("+u2" : String).data = .ok 0 := by decide
    have hout := formatBody_dom_free (formatFuel 1) hm hune he hp hdom'
    have hstemsh : ('(' :: renderFree v.mean
        (hasChar '+' ("+u2" : String).data || ("+u2" : String).data.isEmpty) ++
        [' ', '±', ' '] ++ renderFree v.uncertainty false ++ [')']) =
        '(' :: (renderFree v.mean
          (hasChar '+' ("+u2" : String).data || ("+u2" : String).data.isEmpty) ++
          ' ' :: '±' :: ' ' :: (renderFree v.uncertainty false ++ [')'])) := by
      simp
    have hfor : Uncertain.toStr v = .ok (String.mk ('(' :: renderFree v.mean
        (hasChar '+' ("+u2" : String).data || ("+u2" : String).data.isEmpty) ++
        [' ', '±', ' '] ++ renderFree v.uncertainty false ++ [')'])) :=
      format_ok_intro (by rw [formatFuel_succ]; exact hout)
    have hps : Uncertain.fromString (String.mk ('(' :: renderFree v.mean
        (hasChar '+' ("+u2" : String).data || ("+u2" : String).data.isEmpty) ++
        [' ', '±', ' '] ++ renderFree v.uncertainty false ++ [')'])) =
        .ok (Uncertain.make v.mean v.uncertainty) := by
      have h0 : Uncertain.fromString (String.mk ('(' :: renderFree v.mean
          (hasChar '+' ("+u2" : String).data || ("+u2" : String).data.isEmpty) ++
          [' ', '±', ' '] ++ renderFree v.uncertainty false ++ [')'])) =
          fromStringBody (fromStringFuel ('(' :: renderFree v.mean
            (hasChar '+' ("+u2" : String).data || ("+u2" : String).data.isEmpty) ++
            [' ', '±', ' '] ++ renderFree v.uncertainty false ++ [')']).length)
            ('(' :: renderFree v.mean
              (hasChar '+' ("+u2" : String).data || ("+u2" : String).data.isEmpty) ++
              [' ', '±', ' '] ++ renderFree v.uncertainty false ++ [')']) := rfl
      rw [h0, hstemsh]
      exact fromStringBody_pm _ (renderFree_allNum _ _) (renderFree_allNum _ _)
        (parseFloat_renderFree hfm _) (parseFloat_renderFree hfu _)
    refine ⟨_, _, hfor, hps, fun _ => ⟨rfl, ?_⟩, fun hlt => absurd hdom (not_le.mpr hlt)⟩
    exact abs_of_pos hu
  · have hlt : v.uncertainty < |v.mean| := not_le.mp hdom
    have hdom' : ¬ |v.mean| ≤ |v.uncertainty| := by
      rw [abs_of_pos hu]
      exact hdom
    by_cases hE1 : 1 ≤ |intLog10 v.mean|
    · have hene : intLog10 v.mean ≠ 0 := by
        intro h
        rw [h] at hE1
        exact absurd hE1 (by decide)
      have hwm : (Uncertain.normalize v).mean = v.mean / (10 : ℚ) ^ intLog10 v.mean :=
        normalize_mean v
      have hwu : (Uncertain.normalize v).uncertainty =
          v.uncertainty / (10 : ℚ) ^ intLog10 v.mean := normalize_unc hu.le
      have hm' : (Uncertain.normalize v).mean ≠ 0 := normalize_mean_ne hm
      have hu' : 0 < (Uncertain.normalize v).uncertainty := by
        rw [hwu]
        positivity
      have he0' : intLog10 (Uncertain.normalize v).mean = 0 := normalize_log hm
      have hlt' : (Uncertain.normalize v).uncertainty < |(Uncertain.normalize v).mean| := by
        have h1 : ¬ |(Uncertain.normalize v).mean| ≤ |(Uncertain.normalize v).uncertainty| :=
          fun h => hdom' ((normalize_dom hu.le).mp h)
        calc (Uncertain.normalize v).uncertainty
            = |(Uncertain.normalize v).uncertainty| :=
              (abs_of_nonneg (normalize_unc_nonneg v)).symm
        _ < |(Uncertain.normalize v).mean| := not_le.mp h1
      obtain ⟨stem, qm, qu, hf, hpr, hstE, hstX, hqu0, hbm, hbu1, hbu2⟩ :=
        digits_roundtrip (formatFuel 0) hm' hu' he0' hlt'
          (by decide : hasChar 'E' ([' '] : List Char) = false)
          (by decide : hasChar '×' ([' '] : List Char) = false)
          (by decide : hasChar '(' ([' '] : List Char) = false)
          (by decide : hasChar ')' ([' '] : List Char) = false)
      rw [hwm, hwu] at hbm
      rw [hwu] at hbu1 hbu2
      have hEe : hasChar 'e' ("+u2" : String).data = false := by decide
      have hff : formatFuel 2 v ("+u2" : String).data =
          .ok (stem ++ expChars (intLog10 v.mean) false) := by
        rw [formatFuel_succ, formatBody_rec (formatFuel 1) ("+u2" : String).data hm hune hE1]
        rw [show formatFuel 1 (Uncertain.normalize v) ("+u2" : String).data =
            formatBody (formatFuel 0) (Uncertain.normalize v) ("+u2" : String).data from rfl,
          hf]
        simp only []
        rw [hEe]
      have hsuffix : expChars (intLog10 v.mean) false =
          ' ' :: '×' :: ' ' :: '1' :: '0' :: '^' :: intSignedChars (intLog10 v.mean) := by
        unfold expChars
        rw [if_neg hene]
        rfl
      have hfor : Uncertain.toStr v = .ok (String.mk (stem ++ (' ' :: '×' :: ' ' :: '1' ::
          '0' :: '^' :: intSignedChars (intLog10 v.mean)))) :=
        format_ok_intro (by rw [hff, hsuffix])
      have hsufE : hasChar 'E' (' ' :: '×' :: ' ' :: '1' :: '0' :: '^' ::
          intSignedChars (intLog10 v.mean)) = false := by
        rw [hasChar_cons_ne _ (by decide), hasChar_cons_ne _ (by decide),
          hasChar_cons_ne _ (by decide), hasChar_cons_ne _ (by decide),
          hasChar_cons_ne _ (by decide), hasChar_cons_ne _ (by decide)]
        exact hasChar_false_of_allC (by decide) (intSignedChars_allNum _)
      have houtE : hasChar 'E' (stem ++ (' ' :: '×' :: ' ' :: '1' :: '0' :: '^' ::
          intSignedChars (intLog10 v.mean))) = false := by
        rw [hasChar_append, hstE, hsufE]
        rfl
      have hsufXt : hasChar '×' (' ' :: '1' :: '0' :: '^' ::
          intSignedChars (intLog10 v.mean)) = false := by
        rw [hasChar_cons_ne _ (by decide), hasChar_cons_ne _ (by decide),
          hasChar_cons_ne _ (by decide), hasChar_cons_ne _ (by decide)]
        exact hasChar_false_of_allC (by decide) (intSignedChars_allNum _)
      have houtX : hasChar '×' (stem ++ (' ' :: '×' :: ' ' :: '1' :: '0' :: '^' ::
          intSignedChars (intLog10 v.mean))) = true := by
        rw [hasChar_append, hstX, hasChar_cons_ne _ (by decide), hasChar_cons_self]
        rfl
      have hstemsp : hasChar '×' (stem ++ [' ']) = false := by
        rw [hasChar_append, hstX]
        decide
      have hsplitX : splitOnChar '×' (stem ++ (' ' :: '×' :: ' ' :: '1' :: '0' :: '^' ::
          intSignedChars (intLog10 v.mean))) =
          [stem ++ [' '], ' ' :: '1' :: '0' :: '^' :: intSignedChars (intLog10 v.mean)] := by
        have h3 : stem ++ (' ' :: '×' :: ' ' :: '1' :: '0' :: '^' ::
            intSignedChars (intLog10 v.mean)) =
            (stem ++ [' ']) ++ '×' :: (' ' :: '1' :: '0' :: '^' ::
              intSignedChars (intLog10 v.mean)) := by simp
        rw [h3, splitOnChar_append hstemsp, splitOnChar_of_not_has hsufXt]
      have hsplitC : splitOnChar '^' (' ' :: '1' :: '0' :: '^' ::
          intSignedChars (intLog10 v.mean)) =
          [[' ', '1', '0'], intSignedChars (intLog10 v.mean)] := by
        rw [show (' ' :: '1' :: '0' :: '^' :: intSignedChars (intLog10 v.mean)) =
            [' ', '1', '0'] ++ '^' :: intSignedChars (intLog10 v.mean) from rfl,
          splitOnChar_append (by decide),
          splitOnChar_of_not_has
            (hasChar_false_of_allC (by decide) (intSignedChars_allNum _))]
      have hlen : (stem ++ (' ' :: '×' :: ' ' :: '1' :: '0' :: '^' ::
          intSignedChars (intLog10 v.mean))).length =
          (stem.length + 5 + (intSignedChars (intLog10 v.mean)).length) + 1 := by
        simp [List.length_append]
        omega
      have hps : Uncertain.fromString (String.mk (stem ++ (' ' :: '×' :: ' ' :: '1' ::
          '0' :: '^' :: intSignedChars (intLog10 v.mean)))) =
          .ok (Uncertain.make
            ((Uncertain.make qm qu).mean * (10 : ℚ) ^ intLog10 v.mean)
            ((Uncertain.make qm qu).uncertainty * (10 : ℚ) ^ intLog10 v.mean)) := by
        have h0 : Uncertain.fromString (String.mk (stem ++ (' ' :: '×' :: ' ' :: '1' ::
            '0' :: '^' :: intSignedChars (intLog10 v.mean)))) =
            fromStringBody (fromStringFuel (stem ++ (' ' :: '×' :: ' ' :: '1' :: '0' ::
              '^' :: intSignedChars (intLog10 v.mean))).length)
              (stem ++ (' ' :: '×' :: ' ' :: '1' :: '0' :: '^' ::
                intSignedChars (intLog10 v.mean))) := rfl
        rw [h0, fromStringBody_times_dialect _ houtE houtX, hsplitX]
        simp only []
        rw [hsplitC]
        simp only []
        rw [parseInt_intSignedChars]
        simp only []
        rw [hlen]
        rw [show fromStringFuel ((stem.length + 5 +
            (intSignedChars (intLog10 v.mean)).length) + 1) (stem ++ [' ']) =
            fromStringBody (fromStringFuel (stem.length + 5 +
              (intSignedChars (intLog10 v.mean)).length)) (stem ++ [' ']) from rfl]
        rw [hpr (fromStringFuel (stem.length + 5 +
          (intSignedChars (intLog10 v.mean)).length))]
      have hmk : (Uncertain.make qm qu).uncertainty = qu := abs_of_nonneg hqu0
      have hpe : (0 : ℚ) < (10 : ℚ) ^ intLog10 v.mean := zpow_pos (by norm_num) _
      have hwuval : (Uncertain.make
          ((Uncertain.make qm qu).mean * (10 : ℚ) ^ intLog10 v.mean)
          ((Uncertain.make qm qu).uncertainty * (10 : ℚ) ^ intLog10 v.mean)).uncertainty =
          qu * (10 : ℚ) ^ intLog10 v.mean := by
        show |(Uncertain.make qm qu).uncertainty * (10 : ℚ) ^ intLog10 v.mean| = _
        rw [hmk, abs_of_nonneg (mul_nonneg hqu0 hpe.le)]
      have hvu : v.uncertainty =
          v.uncertainty / (10 : ℚ) ^ intLog10 v.mean * (10 : ℚ) ^ intLog10 v.mean :=
        (div_mul_cancel₀ _ (ne_of_gt hpe)).symm
      refine ⟨_, _, hfor, hps, fun hdd => absurd hdd hdom, fun _ => ⟨?_, ?_, ?_⟩⟩
      · show |(Uncertain.make qm qu).mean * (10 : ℚ) ^ intLog10 v.mean - v.mean| ≤ _
        rw [show (Uncertain.make qm qu).mean = qm from rfl]
        have h5 : qm * (10 : ℚ) ^ intLog10 v.mean - v.mean =
            (qm - v.mean / (10 : ℚ) ^ intLog10 v.mean) * (10 : ℚ) ^ intLog10 v.mean := by
          field_simp
        rw [h5, abs_mul, abs_of_pos hpe]
        calc |qm - v.mean / (10 : ℚ) ^ intLog10 v.mean| * (10 : ℚ) ^ intLog10 v.mean
            ≤ (1 / 2 * (10 : ℚ) ^
              (-(-intLog10 (v.uncertainty / (10 : ℚ) ^ intLog10 v.mean) + 1))) *
              (10 : ℚ) ^ intLog10 v.mean := mul_le_mul_of_nonneg_right hbm hpe.le
        _ = 1 / 2 * (10 : ℚ) ^ (intLog10 v.mean -
              (-intLog10 (v.uncertainty / (10 : ℚ) ^ intLog10 v.mean) + 1)) := by
            rw [sub_eq_add_neg, zpow_add₀ (by norm_num : (10 : ℚ) ≠ 0)]
            ring
      · rw [hwuval]
        calc (0 : ℚ) ≤ (qu - v.uncertainty / (10 : ℚ) ^ intLog10 v.mean) *
              (10 : ℚ) ^ intLog10 v.mean := mul_nonneg hbu1 hpe.le
        _ = qu * (10 : ℚ) ^ intLog10 v.mean - v.uncertainty := by
            rw [sub_mul, ← hvu]
      · rw [hwuval]
        calc qu * (10 : ℚ) ^ intLog10 v.mean - v.uncertainty =
            (qu - v.uncertainty / (10 : ℚ) ^ intLog10 v.mean) *
              (10 : ℚ) ^ intLog10 v.mean := by rw [sub_mul, ← hvu]
        _ < (10 : ℚ) ^
              (-(-intLog10 (v.uncertainty / (10 : ℚ) ^ intLog10 v.mean) + 1)) *
              (10 : ℚ) ^ intLog10 v.mean := mul_lt_mul_of_pos_right hbu2 hpe
        _ = (10 : ℚ) ^ (intLog10 v.mean -
              (-intLog10 (v.uncertainty / (10 : ℚ) ^ intLog10 v.mean) + 1)) := by
            rw [sub_eq_add_neg, zpow_add₀ (by norm_num : (10 : ℚ) ≠ 0)]
            ring
    · have he0 : intLog10 v.mean = 0 := not_one_le_abs_iff.mp hE1
      obtain ⟨stem, qm, qu, hf, hpr, hstE, hstX, hqu0, hbm, hbu1, hbu2⟩ :=
        digits_roundtrip (formatFuel 1) hm hu he0 hlt
          (by decide : hasChar 'E' ([] : List Char) = false)
          (by decide : hasChar '×' ([] : List Char) = false)
          (by decide : hasChar '(' ([] : List Char) = false)
          (by decide : hasChar ')' ([] : List Char) = false)
      simp only [List.append_nil] at hpr
      have hfor : Uncertain.toStr v = .ok (String.mk stem) :=
        format_ok_intro (by rw [formatFuel_succ]; exact hf)
      have hps : Uncertain.fromString (String.mk stem) = .ok (Uncertain.make qm qu) := by
        have h0 : Uncertain.fromString (String.mk stem) =
            fromStringBody (fromStringFuel stem.length) stem := rfl
        rw [h0]
        exact hpr _
      have hmk : (Uncertain.make qm qu).uncertainty = qu := abs_of_nonneg hqu0
      refine ⟨_, _, hfor, hps, fun hdd => absurd hdd hdom, fun _ => ?_⟩
      simp only [he0, zpow_zero, div_one, zero_sub]
      refine ⟨hbm, ?_, ?_⟩
      · rw [hmk]
        exact hbu1
      · rw [hmk]
        exact hbu2

/-- Witness for the amended C3: `Uncertain(3/2, 1/8)` has nonzero mean and
positive uncertainty smaller than the mean, so the round trip applies
(it prints as `+1.50(13)` and parses back within tolerance). -/
theorem C3_witness :
    ((Uncertain.make (3/2) (1/8)).mean ≠ 0 ∧
      0 < (Uncertain.make (3/2) (1/8)).uncertainty) ∧
    (∃ s w, Uncertain.toStr (Uncertain.make (3/2) (1/8)) = .ok s ∧
      Uncertain.fromString s = .ok w ∧
      (|(Uncertain.make (3/2) (1/8)).mean| ≤ (Uncertain.make (3/2) (1/8)).uncertainty →
        w.mean = (Uncertain.make (3/2) (1/8)).mean ∧
        w.uncertainty = (Uncertain.make (3/2) (1/8)).uncertainty) ∧
      ((Uncertain.make (3/2) (1/8)).uncertainty < |(Uncertain.make (3/2) (1/8)).mean| →
        |w.mean - (Uncertain.make (3/2) (1/8)).mean| ≤ 1 / 2 * (10 : ℚ) ^
          (intLog10 (Uncertain.make (3/2) (1/8)).mean -
          (-intLog10 ((Uncertain.make (3/2) (1/8)).uncertainty /
            (10 : ℚ) ^ intLog10 (Uncertain.make (3/2) (1/8)).mean) + 1)) ∧
        0 ≤ w.uncertainty - (Uncertain.make (3/2) (1/8)).uncertainty ∧
        w.uncertainty - (Uncertain.make (3/2) (1/8)).uncertainty < (10 : ℚ) ^
          (intLog10 (Uncertain.make (3/2) (1/8)).mean -
          (-intLog10 ((Uncertain.make (3/2) (1/8)).uncertainty /
            (10 : ℚ) ^ intLog10 (Uncertain.make (3/2) (1/8)).mean) + 1)))) :=
  ⟨⟨by decide, by decide⟩,
    C3_amended (Uncertain.make (3/2) (1/8)) (by decide) (by decide)
      (fun h => absurd h (by decide))⟩
